import Mathlib

/-!
Verification development for the μXML fast reader (`fast_xml` in `src/index.mts`).

JavaScript strings are modelled as lists of UTF-16 code units (`JStr := List Nat`);
this is needed because `String.fromCodePoint` may append an unpaired surrogate
code unit, which no Lean `String` can hold.  The sticky regexes of the source
(`PRIMARY`, `ATTLIST`, `DQ_ATTR`, `SQ_ATTR`, `RX_ATTR`, `PROLOG`) are modelled as
token-length scanners: JavaScript alternation is ordered, and for these particular
regexes the match at a given position is computed alternative by alternative,
with the backtracking of the doctype-like `PROLOG` alternative made explicit.
The nested `while` loops of `fast_xml` are flattened into a step function over a
state carrying the current mode (top level, attribute list, attribute value),
exactly mirroring the mutable variables `src`/`pos` (as the remaining suffix
`rest`), `lit`, `end`, `stack`, `names`, `text`, `active` of the source.
-/

namespace Microxml

/-- A JavaScript string: a list of UTF-16 code units. -/
abbrev JStr := List Nat

/-- Convert a Lean string literal (BMP characters only) to code units. -/
def J (s : String) : JStr := s.data.map Char.toNat

/-- Index of the first occurrence of code unit `c`, as in `String.prototype.indexOf`. -/
def idxOf? (c : Nat) : JStr → Option Nat
  | [] => none
  | x :: t => if x = c then some 0 else (idxOf? c t).map (· + 1)

/-- Index of the first occurrence of the sublist `pat` (used for the lazy
regex bodies `.*?` followed by a literal terminator). -/
def subIdx? (pat : JStr) : JStr → Option Nat
  | [] => if pat.isPrefixOf ([] : JStr) then some 0 else none
  | x :: t => if pat.isPrefixOf (x :: t) then some 0 else (subIdx? pat t).map (· + 1)

/-- Length of the maximal run of code units satisfying `p` (a greedy `[...]+`). -/
def runLen (p : Nat → Bool) (s : JStr) : Nat := (s.takeWhile p).length

/-- `String.prototype.slice` with possibly negative indices, clamped. -/
def jsSlice (s : JStr) (a b : Int) : JStr :=
  let n : Int := s.length
  let lo : Int := if a < 0 then max (n + a) 0 else min a n
  let hi : Int := if b < 0 then max (n + b) 0 else min b n
  (s.drop lo.toNat).take (hi.toNat - lo.toNat)

/-- `String.prototype.at` with a negative index (only `at(-2)` is used). -/
def jsAt (s : JStr) (i : Int) : Option Nat :=
  let j : Int := if i < 0 then (s.length : Int) + i else i
  if j < 0 then none else s.get? j.toNat

/-! ## Token scanners

Each scanner takes the remaining input (the suffix of `src` from `lastIndex`)
and returns the length of the token the corresponding sticky regex matches
there, or `none` when the regex does not match at that position. -/

/-- `&[^;]+;` — entity reference head shared by all the microsyntaxes:
`[^;]+` is a greedy run of non-semicolons, so the body extends to the first
semicolon and must be non-empty. -/
def refLen (s : JStr) : Option Nat :=
  if s.head? = some 38 then
    match idxOf? 59 s.tail with
    | some i => if 1 ≤ i then some (i + 2) else none
    | none => none
  else none

/-- `<!\[.*?\]\]>` — CDATA-ish section: the lazy body ends at the first `]]>`. -/
def cdataLen (s : JStr) : Option Nat :=
  if s.take 3 = [60, 33, 91] then (subIdx? [93, 93, 62] (s.drop 3)).map (· + 6) else none

/-- `<!-.*?-->` — comment: prefix `<!-` then the lazy body to the first `-->`. -/
def commentLen (s : JStr) : Option Nat :=
  if s.take 3 = [60, 33, 45] then (subIdx? [45, 45, 62] (s.drop 3)).map (· + 6) else none

/-- `<\?.*?\?>` — processing instruction: body to the first `?>`. -/
def piLen (s : JStr) : Option Nat :=
  if s.take 2 = [60, 63] then (subIdx? [63, 62] (s.drop 2)).map (· + 4) else none

/-- Characters that stop a tag-name run: the class `[^/> \t\r\n]`. -/
def nameChar (c : Nat) : Bool :=
  !(c == 47 || c == 62 || c == 32 || c == 9 || c == 13 || c == 10)

/-- `<\/?[^/> \t\r\n]+` — opening or closing tag head.  When the optional `/`
is present but the following run is empty, backtracking retries without the
`/`, which then fails on the `/` itself, so the whole alternative fails. -/
def tagHeadLen (s : JStr) : Option Nat :=
  if s.take 2 = [60, 47] then
    let r := runLen nameChar (s.drop 2)
    if 1 ≤ r then some (r + 2) else none
  else if s.head? = some 60 then
    let r := runLen nameChar (s.drop 1)
    if 1 ≤ r then some (r + 1) else none
  else none

/-- `[^<&]+` — top-level plain text run. -/
def textLen (s : JStr) : Option Nat :=
  let r := runLen (fun c => !(c == 60 || c == 38)) s
  if 1 ≤ r then some r else none

/-- Ordered alternation on scan results: the left alternative wins. -/
def orE : Option Nat → Option Nat → Option Nat
  | some n, _ => some n
  | none, o => o

/-- The `PRIMARY` regex: ordered alternation
`&[^;]+;|<!\[.*?\]\]>|<!-.*?-->|<\?.*?\?>|<\/?[^/> \t\r\n]+|[^<&]+`.
A token starting with `&` can only be the reference alternative, and a token
starting with `<` can only be one of the four `<`-alternatives, tried in
regex order. -/
def primaryLen (s : JStr) : Option Nat :=
  if s = [] then none
  else if s.head? = some 38 then refLen s
  else if s.head? = some 60 then
    orE (cdataLen s) (orE (commentLen s) (orE (piLen s) (tagHeadLen s)))
  else textLen s

/-- Whitespace class `[ \t\r\n]` of the `ATTLIST` regex. -/
def wsChar (c : Nat) : Bool := c == 32 || c == 9 || c == 13 || c == 10

/-- The `ATTLIST` regex: `\/?>|[ \t\r\n]+|[^=]+=["']`.  The third alternative
matches a greedy non-`=` run (which may cross `>` and newlines), the first `=`,
and a quote immediately after it. -/
def attlistLen (s : JStr) : Option Nat :=
  if s.take 2 = [47, 62] then some 2
  else if s.head? = some 62 then some 1
  else
    let w := runLen wsChar s
    if 1 ≤ w then some w
    else
      match idxOf? 61 s with
      | some i =>
        if 1 ≤ i then
          if s.get? (i + 1) = some 34 ∨ s.get? (i + 1) = some 39 then some (i + 2) else none
        else none
      | none => none

/-- The three literal microsyntaxes of attribute-value mode. -/
inductive LitKind where
  | dq
  | sq
  | rx
deriving DecidableEq, Repr

/-- `DQ_ATTR` = `&[^;]+;|"|[^"&]+`, `SQ_ATTR` = `&[^;]+;|'|[^'&]+`,
`RX_ATTR` = `&[^;]+;|[^&]+`, as token lengths. -/
def litQuote : LitKind → Option Nat
  | .dq => some 34
  | .sq => some 39
  | .rx => none

/-- The run class of each literal microsyntax: everything but `&` and the
quote the grammar treats as a delimiter. -/
def litRun (k : LitKind) (c : Nat) : Bool :=
  !(c == 38 || litQuote k = some c)

def litLen (k : LitKind) (s : JStr) : Option Nat :=
  if s.head? = some 38 then refLen s
  else if s.head? = litQuote k ∧ s ≠ [] then some 1
  else
    let r := runLen (litRun k) s
    if 1 ≤ r then some r else none

/-! ## Numeric references: `parseInt` and `String.fromCodePoint` -/

/-- The StrWhiteSpace code units trimmed by `parseInt`: WhiteSpace (TAB, VT,
FF, SP, NBSP, ZWNBSP and every Unicode space separator: U+1680,
U+2000-U+200A, U+202F, U+205F, U+3000) and LineTerminator (LF, CR, LS, PS). -/
def jsWs (c : Nat) : Bool :=
  c == 32 || c == 9 || c == 10 || c == 13 || c == 11 || c == 12 || c == 160 ||
    c == 5760 || (decide (8192 ≤ c) && decide (c ≤ 8202)) || c == 8232 ||
    c == 8233 || c == 8239 || c == 8287 || c == 12288 || c == 65279

/-- Value of one hexadecimal digit. -/
def hexDigit? (c : Nat) : Option Nat :=
  if 48 ≤ c ∧ c ≤ 57 then some (c - 48)
  else if 97 ≤ c ∧ c ≤ 102 then some (c - 87)
  else if 65 ≤ c ∧ c ≤ 70 then some (c - 55)
  else none

/-- Value of one decimal digit. -/
def decDigit? (c : Nat) : Option Nat :=
  if 48 ≤ c ∧ c ≤ 57 then some (c - 48) else none

/-- Fold the maximal digit prefix; `none` when there is no digit at all. -/
def digitsVal (dig : Nat → Option Nat) (base : Nat) (s : JStr) : Option Nat :=
  let ds := (s.takeWhile (fun c => (dig c).isSome)).filterMap dig
  if ds = [] then none else some (ds.foldl (fun a d => a * base + d) 0)

/-- `parseInt(s)` with no radix argument: trim, optional sign, automatic
hexadecimal on a `0x`/`0X` prefix, else a maximal decimal digit prefix;
`NaN` (modelled as `none`) when no digit is found. -/
def parseIntDec (s : JStr) : Option Int :=
  let s := s.dropWhile jsWs
  let (sg, s) : Int × JStr :=
    match s with
    | 43 :: t => (1, t)
    | 45 :: t => (-1, t)
    | _ => (1, s)
  match s with
  | 48 :: 120 :: t => (digitsVal hexDigit? 16 t).map (fun v => sg * v)
  | 48 :: 88 :: t => (digitsVal hexDigit? 16 t).map (fun v => sg * v)
  | _ => (digitsVal decDigit? 10 s).map (fun v => sg * v)

/-- `parseInt(s, 16)`: trim, optional sign, optional `0x`/`0X` prefix, then a
maximal hexadecimal digit prefix. -/
def parseIntHex (s : JStr) : Option Int :=
  let s := s.dropWhile jsWs
  let (sg, s) : Int × JStr :=
    match s with
    | 43 :: t => (1, t)
    | 45 :: t => (-1, t)
    | _ => (1, s)
  match s with
  | 48 :: 120 :: t => (digitsVal hexDigit? 16 t).map (fun v => sg * v)
  | 48 :: 88 :: t => (digitsVal hexDigit? 16 t).map (fun v => sg * v)
  | t => (digitsVal hexDigit? 16 t).map (fun v => sg * v)

/-- `String.fromCodePoint` as UTF-16 code units: code points below `0x10000`
(including unpaired surrogates) become one unit, the rest a surrogate pair. -/
def fromCodePoint (c : Nat) : JStr :=
  if c < 65536 then [c] else [55296 + (c - 65536) / 1024, 56320 + (c - 65536) % 1024]

/-- The `PREDEFINED` entity table. -/
def predef (r : JStr) : Option JStr :=
  if r = J "lt" then some [60]
  else if r = J "gt" then some [62]
  else if r = J "amp" then some [38]
  else if r = J "apos" then some [39]
  else if r = J "quot" then some [34]
  else none

/-! ## The `PROLOG` regex

`^(?:<!(?:"[^"]*"|'[^']*'|<(?:"[^"]*"|'[^']*'|[^>]+)*>|[^<>"']+)*>|<!-.*?-->|<\?.*?\?>|[^<]+)*`
with the sticky flag.  Nothing follows the outer star, so the engine never
backtracks across a successfully matched iteration: the effective semantics is
a loop that repeatedly matches the first alternative that succeeds at the
current position.  The doctype-like first alternative does backtrack
internally; that search is made explicit below (candidates are produced in the
engine's priority order: greedy runs longest first, alternatives in regex
order, one more star iteration preferred over closing). -/

/-- `"[^"]*"`: to the first closing double quote, or failure. -/
def dqLitRest (s : JStr) : Option JStr :=
  if s.head? = some 34 then
    match idxOf? 34 s.tail with
    | some i => some (s.tail.drop (i + 1))
    | none => none
  else none

/-- `'[^']*'`: to the first closing single quote, or failure. -/
def sqLitRest (s : JStr) : Option JStr :=
  if s.head? = some 39 then
    match idxOf? 39 s.tail with
    | some i => some (s.tail.drop (i + 1))
    | none => none
  else none

/-- Remainders after a greedy run `[p]+`, longest first (backtracking order). -/
def runCands (p : Nat → Bool) (s : JStr) : List JStr :=
  (List.range (runLen p s)).map (fun j => s.drop (runLen p s - j))

/-- Work items for the backtracking search of the doctype-like alternative:
a position inside `<!(?:...)*` (`d`), its pending exit check against the final
`>` (`dx`), a position inside a bracket `<(?:...)*` (`b`), and its pending
exit check against the bracket's `>` (`bx`). -/
inductive DItem where
  | d (s : JStr)
  | dx (s : JStr)
  | b (s : JStr)
  | bx (s : JStr)

/-- Depth-first search over the doctype-like alternative
`<!(?:"[^"]*"|'[^']*'|<(?:"[^"]*"|'[^']*'|[^>]+)*>|[^<>"']+)*>` in the
engine's priority order: alternatives in regex order, greedy runs longest
first, one more star iteration preferred over exiting the star.  Returns the
remainder after the first overall success. -/
def declDfs : Nat → List DItem → Option JStr
  | 0, _ => none
  | _ + 1, [] => none
  | fuel + 1, it :: w =>
    match it with
    | .d s =>
      declDfs fuel
        ((dqLitRest s).toList.map DItem.d ++ (sqLitRest s).toList.map DItem.d ++
          (match s with | 60 :: t => [DItem.b t] | _ => []) ++
          (runCands (fun c => !(c == 60 || c == 62 || c == 34 || c == 39)) s).map DItem.d ++
          [DItem.dx s] ++ w)
    | .dx s =>
      match s with
      | 62 :: t => some t
      | _ => declDfs fuel w
    | .b s =>
      declDfs fuel
        ((dqLitRest s).toList.map DItem.b ++ (sqLitRest s).toList.map DItem.b ++
          (runCands (fun c => !(c == 62)) s).map DItem.b ++ [DItem.bx s] ++ w)
    | .bx s =>
      match s with
      | 62 :: t => declDfs fuel (DItem.d t :: w)
      | _ => declDfs fuel w

/-- The doctype-like alternative `<!(?:...)*>`, as a token length.  The fuel
bounds the number of visited search nodes; the search tree has depth at most
the input length and branching at most the input length plus three, so the
chosen fuel is never exhausted. -/
def declLen : JStr → Option Nat
  | 60 :: 33 :: t =>
    (declDfs ((t.length + 4) ^ (t.length + 4)) [DItem.d t]).map
      (fun r => t.length + 2 - r.length)
  | _ => none

/-- `[^<]+`: prolog filler run. -/
def fillerLen (s : JStr) : Option Nat :=
  let r := runLen (fun c => !(c == 60)) s
  if 1 ≤ r then some r else none

/-- One `PROLOG` iteration: the ordered alternation. -/
def prologTokLen (s : JStr) : Option Nat :=
  orE (declLen s) (orE (commentLen s) (orE (piLen s) (fillerLen s)))

/-- Iterate `PROLOG` alternatives until none matches; returns the remainder.
Every token is non-empty, so `s.length + 1` iterations always suffice. -/
def prologGo : Nat → JStr → JStr
  | 0, s => s
  | fuel + 1, s =>
    match prologTokLen s with
    | some n => if n = 0 then s else prologGo fuel (s.drop n)
    | none => s

/-- The prolog prefix and the remaining input (`PROLOG.test(src)` followed by
`pos = PROLOG.lastIndex`). -/
def prologSplit (s : JStr) : JStr × JStr :=
  let r := prologGo (s.length + 1) s
  (s.take (s.length - r.length), r)

/-! ## The reader state machine

The nested `while` loops of `fast_xml` are flattened into one step function
with an explicit mode: the attribute-list loop and the attribute-value loop
are each entered at most once at a time (they are loops, not recursion), so
their local variables `tag`, `attrs`, `attr` live in the mode.  The mutable
`src`/`pos` pair is modelled by the remaining suffix `rest`; the expansion
stack stores such suffixes with the saved `lit`/`end` registers.  `lit` and
`end` start out as JavaScript `undefined` (`none`): scanning the literal with
an `undefined` `lit` throws a `TypeError`, which ends the read just like
deactivation and is modelled as `active := false`. -/

/-- A hook invocation. -/
inductive Ev where
  | evHead (s : JStr)
  | evOtag (tag : JStr) (attrs : List (JStr × JStr))
  | evCtag (tag : JStr)
  | evText (s : JStr)
deriving DecidableEq, Repr

/-- Which loop of `fast_xml` is running. -/
inductive Mode where
  | top
  | alist (tag : JStr) (attrs : List (JStr × JStr))
  | value (tag : JStr) (attrs : List (JStr × JStr)) (aname : JStr)
deriving DecidableEq, Repr

/-- One expansion stack frame: `[src, pos, lit, end]`, with `src`/`pos` as the
remaining suffix. -/
structure Frame where
  rest : JStr
  flit : Option LitKind
  fdlm : Option JStr
deriving DecidableEq, Repr

/-- The mutable state of `fast_xml` (the stacks grow at the head). -/
structure St where
  rest : JStr
  mode : Mode
  vlit : Option LitKind
  vdlm : Option JStr
  stk : List Frame
  names : List JStr
  buf : JStr
  out : List Ev
  active : Bool
deriving DecidableEq, Repr

/-- `Map.prototype.set`: an existing key keeps its position and gets the new
value, a new key is appended. -/
def mapSet : List (JStr × JStr) → JStr → JStr → List (JStr × JStr)
  | [], k, v => [(k, v)]
  | (k1, v1) :: t, k, v =>
    if k1 = k then (k1, v) :: t else (k1, v1) :: mapSet t k v

/-- `Map.prototype.get` over the entity table. -/
def defsGet (defs : List (JStr × JStr)) (k : JStr) : Option JStr :=
  match defs with
  | [] => none
  | (k1, v1) :: t => if k1 = k then some v1 else defsGet t k

/-- The `expand` closure: numeric reference, predefined entity, or a defined,
non-recursive named entity (which pushes a frame and redirects the source). -/
def expand (defs : List (JStr × JStr)) (ref : JStr) (s : St) : St :=
  if ref.head? = some 35 then
    let code :=
      if ref.get? 1 = some 120 then parseIntHex (ref.drop 2) else parseIntDec (ref.drop 1)
    match code with
    | some c =>
      if 0 ≤ c ∧ c < 1114112 then
        { s with buf := s.buf ++ fromCodePoint c.toNat }
      else { s with active := false }
    | none => { s with active := false }
  else
    match predef ref with
    | some r => { s with buf := s.buf ++ r }
    | none =>
      if ref ∉ s.names ∧ (defsGet defs ref).isSome then
        { s with
          names := ref :: s.names
          stk := ⟨s.rest, s.vlit, s.vdlm⟩ :: s.stk
          rest := (defsGet defs ref).getD []
          vlit := some .rx
          vdlm := some [] }
      else s

/-- The `back` closure: pop the name stack and restore the saved frame. -/
def back (s : St) : St :=
  match s.stk, s.names with
  | f :: fs, _ :: ns =>
    { s with rest := f.rest, vlit := f.flit, vdlm := f.fdlm, stk := fs, names := ns }
  | _, _ => s

/-- Flush the text buffer through the `text` hook (only when non-empty). -/
def flush (s : St) : St :=
  if s.buf = [] then s else { s with out := s.out ++ [.evText s.buf], buf := [] }

/-- Handling of one matched `PRIMARY` token (the body of the top-level loop
after `PRIMARY.test(src)` succeeded and `pos` advanced past the token). -/
def topTok (defs : List (JStr × JStr)) (tok : JStr) (s : St) : St :=
  if tok.head? = some 60 then
    if tok.get? 1 = some 47 then
      let s1 := flush s
      match idxOf? 62 s1.rest with
      | none => { s1 with active := false }
      | some i =>
        { s1 with out := s1.out ++ [.evCtag (tok.drop 2)], rest := s1.rest.drop (i + 1) }
    else if tok.get? 1 = some 33 ∧ tok.get? 2 = some 91 then
      { s with buf := s.buf ++ jsSlice tok 9 (-3) }
    else if tok.get? 1 ≠ some 33 ∧ tok.get? 1 ≠ some 63 then
      let s1 := flush s
      { s1 with mode := .alist (tok.drop 1) [] }
    else s
  else if tok.head? = some 38 then expand defs (jsSlice tok 1 (-1)) s
  else { s with buf := s.buf ++ tok }

/-- One iteration of the top-level loop. -/
def stepTop (defs : List (JStr × JStr)) (s : St) : St :=
  match primaryLen s.rest with
  | none => if s.stk = [] then { s with active := false } else back s
  | some n => topTok defs (s.rest.take n) { s with rest := s.rest.drop n }

/-- Handling of one matched `ATTLIST` token. -/
def alistTok (tag : JStr) (attrs : List (JStr × JStr)) (tok : JStr) (s : St) : St :=
  if tok = [47, 62] ∨ tok = [62] then
    { s with
      out := s.out ++ [.evOtag tag attrs] ++ (if tok = [62] then [] else [.evCtag tag])
      mode := .top }
  else if jsAt tok (-2) = some 61 then
    { s with
      mode := .value tag attrs (jsSlice tok 0 (-2))
      vdlm := some (tok.drop (tok.length - 1))
      vlit := some (if tok.getLast? = some 34 then .dq else .sq) }
  else s

/-- One iteration of the attribute-list loop (no frame pop on failure: a
replacement ending mid-attribute-list is fatal, per the source's note). -/
def stepAlist (tag : JStr) (attrs : List (JStr × JStr)) (s : St) : St :=
  match attlistLen s.rest with
  | none => { s with active := false }
  | some n => alistTok tag attrs (s.rest.take n) { s with rest := s.rest.drop n }

/-- Handling of one matched literal token in attribute-value mode. -/
def valueTok (defs : List (JStr × JStr)) (tag : JStr) (attrs : List (JStr × JStr))
    (aname : JStr) (tok : JStr) (s : St) : St :=
  if some tok = s.vdlm then
    { s with mode := .alist tag (mapSet attrs aname s.buf), buf := [] }
  else if tok.head? = some 38 then expand defs (jsSlice tok 1 (-1)) s
  else { s with buf := s.buf ++ tok }

/-- One iteration of the attribute-value loop.  A `vlit` of `none` models the
JavaScript `TypeError` thrown by `lit.lastIndex = pos` on an `undefined`
`lit` (reachable by popping a frame that was pushed at top level before any
attribute was read); it ends the read like deactivation. -/
def stepValue (defs : List (JStr × JStr)) (tag : JStr) (attrs : List (JStr × JStr))
    (aname : JStr) (s : St) : St :=
  match s.vlit with
  | none => { s with active := false }
  | some k =>
    match litLen k s.rest with
    | none => if s.stk = [] then { s with active := false } else back s
    | some n => valueTok defs tag attrs aname (s.rest.take n) { s with rest := s.rest.drop n }

/-- One iteration of the innermost live loop of `fast_xml`. -/
def step (defs : List (JStr × JStr)) (s : St) : St :=
  if s.active = false then s
  else
    match s.mode with
    | .top => stepTop defs s
    | .alist tag attrs => stepAlist tag attrs s
    | .value tag attrs aname => stepValue defs tag attrs aname s

/-- The initial state: the prolog is scanned and the `head` hook has fired. -/
def init (src : JStr) : St :=
  { rest := (prologSplit src).2
    mode := .top
    vlit := none
    vdlm := none
    stk := []
    names := []
    buf := []
    out := [.evHead (prologSplit src).1]
    active := true }

/-- Iterate the step function. -/
def steps (defs : List (JStr × JStr)) : Nat → St → St
  | 0, s => s
  | n + 1, s => steps defs n (step defs s)

/-! ## Scanner bounds

Every token a scanner matches is non-empty and no longer than the input. -/

theorem runLen_le (p : Nat → Bool) (s : JStr) : runLen p s ≤ s.length :=
  List.Sublist.length_le (List.takeWhile_sublist _)

theorem idxOf?_lt {c : Nat} : ∀ {s : JStr} {i : Nat}, idxOf? c s = some i → i < s.length := by
  intro s
  induction s with
  | nil => intro i h; simp [idxOf?] at h
  | cons x t ih =>
    intro i h
    simp only [idxOf?] at h
    split at h
    · cases h; simp
    · match hr : idxOf? c t with
      | none => rw [hr] at h; simp at h
      | some j =>
        rw [hr] at h
        simp only [Option.map_some'] at h
        cases h
        have := ih hr
        simp; omega

theorem subIdx?_le {pat : JStr} : ∀ {s : JStr} {i : Nat},
    subIdx? pat s = some i → i + pat.length ≤ s.length := by
  intro s
  induction s with
  | nil =>
    intro i h
    simp only [subIdx?] at h
    split at h
    · cases h
      next hp =>
        have := (List.isPrefixOf_iff_prefix.mp hp).length_le
        simpa using this
    · cases h
  | cons x t ih =>
    intro i h
    simp only [subIdx?] at h
    split at h
    · cases h
      next hp =>
        have := (List.isPrefixOf_iff_prefix.mp hp).length_le
        simpa using this
    · match hr : subIdx? pat t with
      | none => rw [hr] at h; simp at h
      | some j =>
        rw [hr] at h
        simp only [Option.map_some'] at h
        cases h
        have := ih hr
        simp only [List.length_cons]
        omega


theorem orE_eq_some {a b : Option Nat} {n : Nat} (h : orE a b = some n) :
    a = some n ∨ (a = none ∧ b = some n) := by
  match a with
  | some m => left; exact h
  | none => right; exact ⟨rfl, h⟩

theorem refLen_bounds {s : JStr} {n : Nat} (h : refLen s = some n) : 1 ≤ n ∧ n ≤ s.length := by
  simp only [refLen] at h
  split at h
  · match hr : idxOf? 59 s.tail with
    | none => rw [hr] at h; cases h
    | some i =>
      rw [hr] at h
      have hlt := idxOf?_lt hr
      have hs : s ≠ [] := by
        intro he
        subst he
        simp [idxOf?] at hr
      have hlen : s.tail.length + 1 = s.length := by
        match s, hs with
        | x :: t, _ => simp
      change (if 1 ≤ i then some (i + 2) else none) = some n at h
      by_cases h1 : 1 ≤ i
      · rw [if_pos h1] at h; cases h; omega
      · rw [if_neg h1] at h; cases h
  · cases h

theorem cdataLen_bounds {s : JStr} {n : Nat} (h : cdataLen s = some n) :
    1 ≤ n ∧ n ≤ s.length := by
  simp only [cdataLen] at h
  split at h
  · match hs : subIdx? [93, 93, 62] (s.drop 3) with
    | none => rw [hs] at h; cases h
    | some i =>
      rw [hs] at h
      have hle := subIdx?_le hs
      have hdrop : (s.drop 3).length = s.length - 3 := by simp
      have h3 : 3 ≤ s.length := by
        next hp =>
          have : (s.take 3).length = 3 := by rw [hp]; rfl
          simp at this
          omega
      simp only [Option.map_some'] at h
      cases h
      simp at hle
      omega
  · cases h

theorem commentLen_bounds {s : JStr} {n : Nat} (h : commentLen s = some n) :
    1 ≤ n ∧ n ≤ s.length := by
  simp only [commentLen] at h
  split at h
  · match hs : subIdx? [45, 45, 62] (s.drop 3) with
    | none => rw [hs] at h; cases h
    | some i =>
      rw [hs] at h
      have hle := subIdx?_le hs
      have h3 : 3 ≤ s.length := by
        next hp =>
          have : (s.take 3).length = 3 := by rw [hp]; rfl
          simp at this
          omega
      simp only [Option.map_some'] at h
      cases h
      simp at hle
      omega
  · cases h

theorem piLen_bounds {s : JStr} {n : Nat} (h : piLen s = some n) : 1 ≤ n ∧ n ≤ s.length := by
  simp only [piLen] at h
  split at h
  · match hs : subIdx? [63, 62] (s.drop 2) with
    | none => rw [hs] at h; cases h
    | some i =>
      rw [hs] at h
      have hle := subIdx?_le hs
      have h2 : 2 ≤ s.length := by
        next hp =>
          have : (s.take 2).length = 2 := by rw [hp]; rfl
          simp at this
          omega
      simp only [Option.map_some'] at h
      cases h
      simp at hle
      omega
  · cases h

theorem tagHeadLen_bounds {s : JStr} {n : Nat} (h : tagHeadLen s = some n) :
    1 ≤ n ∧ n ≤ s.length := by
  simp only [tagHeadLen] at h
  split at h
  · have hr := runLen_le nameChar (s.drop 2)
    have h2 : 2 ≤ s.length := by
      next hp =>
        have : (s.take 2).length = 2 := by rw [hp]; rfl
        simp at this
        omega
    simp only [List.length_drop] at hr
    split at h
    · cases h; omega
    · cases h
  · split at h
    · have hr := runLen_le nameChar (s.drop 1)
      have h1 : 1 ≤ s.length := by
        next hp _ =>
          match s, hp with
          | x :: t, _ => simp
      simp only [List.length_drop] at hr
      split at h
      · cases h; omega
      · cases h
    · cases h

theorem textLen_bounds {s : JStr} {n : Nat} (h : textLen s = some n) :
    1 ≤ n ∧ n ≤ s.length := by
  simp only [textLen] at h
  have hr := runLen_le (fun c => !(c == 60 || c == 38)) s
  split at h
  · cases h; omega
  · cases h

theorem primaryLen_bounds {s : JStr} {n : Nat} (h : primaryLen s = some n) :
    1 ≤ n ∧ n ≤ s.length := by
  simp only [primaryLen] at h
  split at h
  · cases h
  split at h
  · exact refLen_bounds h
  split at h
  · rcases orE_eq_some h with h1 | ⟨_, h1⟩
    · exact cdataLen_bounds h1
    rcases orE_eq_some h1 with h2 | ⟨_, h2⟩
    · exact commentLen_bounds h2
    rcases orE_eq_some h2 with h3 | ⟨_, h3⟩
    · exact piLen_bounds h3
    · exact tagHeadLen_bounds h3
  · exact textLen_bounds h

theorem attlistLen_bounds {s : JStr} {n : Nat} (h : attlistLen s = some n) :
    1 ≤ n ∧ n ≤ s.length := by
  simp only [attlistLen] at h
  split at h
  · cases h
    next hp =>
      have : (s.take 2).length = 2 := by rw [hp]; rfl
      simp at this
      omega
  split at h
  · cases h
    next hp _ =>
      match s, hp with
      | x :: t, _ => simp
  · have hw := runLen_le wsChar s
    split at h
    · cases h; omega
    · match hr : idxOf? 61 s with
      | none => rw [hr] at h; cases h
      | some i =>
        rw [hr] at h
        have hlt := idxOf?_lt hr
        change (if 1 ≤ i then
            if s.get? (i + 1) = some 34 ∨ s.get? (i + 1) = some 39 then some (i + 2)
            else none
          else none) = some n at h
        by_cases h1 : 1 ≤ i
        · rw [if_pos h1] at h
          by_cases hq : s.get? (i + 1) = some 34 ∨ s.get? (i + 1) = some 39
          · rw [if_pos hq] at h
            cases h
            rcases hq with hq | hq <;>
              { have : i + 1 < s.length := (List.get?_eq_some.mp hq).1
                omega }
          · rw [if_neg hq] at h; cases h
        · rw [if_neg h1] at h; cases h

theorem litLen_bounds {k : LitKind} {s : JStr} {n : Nat} (h : litLen k s = some n) :
    1 ≤ n ∧ n ≤ s.length := by
  simp only [litLen] at h
  split at h
  · exact refLen_bounds h
  split at h
  · cases h
    next hq =>
      match s, hq.2 with
      | x :: t, _ => simp
  · have hr := runLen_le (litRun k) s
    split at h
    · cases h; omega
    · cases h

/-! ## Stack and name-stack invariants -/

/-- The entity names defined by the table. -/
def keysOf (defs : List (JStr × JStr)) : List JStr := defs.map Prod.fst

/-- An upper bound on the length of any replacement text in the table. -/
def maxRep (defs : List (JStr × JStr)) : Nat :=
  (defs.map (fun p => p.2.length)).foldr Nat.max 0

theorem defsGet_mem {defs : List (JStr × JStr)} {k v : JStr} (h : defsGet defs k = some v) :
    k ∈ keysOf defs := by
  induction defs with
  | nil => simp [defsGet] at h
  | cons p t ih =>
    simp only [defsGet] at h
    split at h
    · next he => simp [keysOf, he]
    · have := ih h
      simp [keysOf] at this ⊢
      right
      exact this

theorem defsGet_len_le {defs : List (JStr × JStr)} {k v : JStr} (h : defsGet defs k = some v) :
    v.length ≤ maxRep defs := by
  induction defs with
  | nil => simp [defsGet] at h
  | cons p t ih =>
    simp only [defsGet] at h
    split at h
    · cases h
      simp only [maxRep, List.map_cons, List.foldr_cons]
      exact Nat.le_max_left _ _
    · have := ih h
      simp only [maxRep, List.map_cons, List.foldr_cons] at this ⊢
      exact le_trans this (Nat.le_max_right _ _)

/-- The cross-cutting state invariant: the frame stack and the name stack have
equal length, the pending names are distinct, and each is a defined entity. -/
def Inv (defs : List (JStr × JStr)) (s : St) : Prop :=
  s.stk.length = s.names.length ∧ s.names.Nodup ∧ ∀ x ∈ s.names, x ∈ keysOf defs

theorem flush_fields (s : St) :
    (flush s).rest = s.rest ∧ (flush s).stk = s.stk ∧ (flush s).names = s.names ∧
      (flush s).active = s.active ∧ (flush s).mode = s.mode ∧ (flush s).vlit = s.vlit ∧
      (flush s).vdlm = s.vdlm := by
  simp only [flush]
  split <;> simp

theorem expand_shape (defs : List (JStr × JStr)) (ref : JStr) (s : St) :
    ((expand defs ref s).rest = s.rest ∧ (expand defs ref s).stk = s.stk ∧
        (expand defs ref s).names = s.names ∧
        ((expand defs ref s).active = s.active ∨ (expand defs ref s).active = false)) ∨
      (ref ∉ s.names ∧ ref ∈ keysOf defs ∧
        (expand defs ref s).rest.length ≤ maxRep defs ∧
        (expand defs ref s).stk = ⟨s.rest, s.vlit, s.vdlm⟩ :: s.stk ∧
        (expand defs ref s).names = ref :: s.names ∧
        (expand defs ref s).active = s.active) := by
  simp only [expand]
  split
  · split
    · split
      · left; simp
      · left; simp
    · left; simp
  · split
    · left; simp
    · split
      · next hc =>
        right
        match hg : defsGet defs ref with
        | some v =>
          refine ⟨hc.1, defsGet_mem hg, ?_, by simp, by simp, by simp⟩
          simp only [hg, Option.getD_some]
          exact defsGet_len_le hg
        | none => rw [hg] at hc; simp at hc
      · left; simp

theorem back_shape {s : St} {f : Frame} {fs : List Frame} (h : s.stk = f :: fs)
    (hlen : s.stk.length = s.names.length) :
    ∃ x ns, s.names = x :: ns ∧
      back s = { s with rest := f.rest, vlit := f.flit, vdlm := f.fdlm, stk := fs, names := ns } := by
  match hn : s.names with
  | [] => rw [h, hn] at hlen; simp at hlen
  | x :: ns =>
    refine ⟨x, ns, rfl, ?_⟩
    simp only [back, h, hn]

/-- The four possible outcomes of one step, relative to the previous state:
deactivation, plain consumption from the current source, an expansion push,
and a frame pop. -/
def StepOut (defs : List (JStr × JStr)) (s r : St) : Prop :=
  (r.active = false ∧ r.stk = s.stk ∧ r.names = s.names) ∨
    (r.active = true ∧ r.stk = s.stk ∧ r.names = s.names ∧
      r.rest.length < s.rest.length) ∨
    (∃ ref fr, ref ∉ s.names ∧ ref ∈ keysOf defs ∧ r.names = ref :: s.names ∧
      r.stk = fr :: s.stk ∧ fr.rest.length < s.rest.length ∧
      r.rest.length ≤ maxRep defs ∧ r.active = true) ∨
    (∃ f fs, s.stk = f :: fs ∧ s.names ≠ [] ∧ r.stk = fs ∧ r.names = s.names.tail ∧
      r.rest = f.rest ∧ r.active = true)

theorem topTok_out (defs : List (JStr × JStr)) (tok : JStr) {s s1 : St}
    (hact : s.active = true) (h1 : s1 = { s with rest := s.rest.drop n })
    (hn : 1 ≤ n) (hle : n ≤ s.rest.length) :
    StepOut defs s (topTok defs tok s1) := by
  have hlt : s1.rest.length < s.rest.length := by
    rw [h1]; simp; omega
  have hstk : s1.stk = s.stk := by rw [h1]
  have hnm : s1.names = s.names := by rw [h1]
  have hac : s1.active = true := by rw [h1]; exact hact
  simp only [topTok]
  split
  · split
    · obtain ⟨f1, f2, f3, f4, _⟩ := flush_fields s1
      split
      · left
        refine ⟨by simp, by simp [f2, hstk], by simp [f3, hnm]⟩
      · right; left
        refine ⟨by simp [f4, hac], by simp [f2, hstk], by simp [f3, hnm], ?_⟩
        simp only [List.length_drop]
        rw [f1]
        omega
    · split
      · right; left
        exact ⟨by simp [hac], by simp [hstk], by simp [hnm], by simp [h1]; omega⟩
      · split
        · obtain ⟨f1, f2, f3, f4, _⟩ := flush_fields s1
          right; left
          exact ⟨by simp [f4, hac], by simp [f2, hstk], by simp [f3, hnm], by rw [f1, h1]; simp; omega⟩
        · right; left
          exact ⟨hac, hstk, hnm, by rw [h1]; simp; omega⟩
  · split
    · rcases expand_shape defs (jsSlice tok 1 (-1)) s1 with ⟨e1, e2, e3, e4 | e4⟩ | ⟨e1, e2, e3, e4, e5, e6⟩
      · right; left
        refine ⟨by rw [e4, hac], by rw [e2, hstk], by rw [e3, hnm], by rw [e1, h1]; simp; omega⟩
      · left
        exact ⟨e4, by rw [e2, hstk], by rw [e3, hnm]⟩
      · right; right; left
        refine ⟨jsSlice tok 1 (-1), ⟨s1.rest, s1.vlit, s1.vdlm⟩, ?_, e2, by rw [e5, hnm], by rw [e4, hstk], ?_, e3, by rw [e6, hac]⟩
        · rw [hnm] at e1; exact e1
        · rw [h1]; simp; omega
    · right; left
      exact ⟨hac, hstk, hnm, by rw [h1]; simp; omega⟩

theorem stepTop_out (defs : List (JStr × JStr)) (s : St) (hact : s.active = true)
    (hlen : s.stk.length = s.names.length) : StepOut defs s (stepTop defs s) := by
  simp only [stepTop]
  cases hp : primaryLen s.rest with
  | none =>
    simp only [hp]
    split
    · left; simp
    · next hne =>
      match hstk : s.stk with
      | [] => exact absurd hstk hne
      | f :: fs =>
        obtain ⟨x, ns, hns, hb⟩ := back_shape hstk hlen
        right; right; right
        refine ⟨f, fs, hstk, by rw [hns]; simp, ?_, ?_, ?_, ?_⟩ <;> rw [hb] <;> simp [hns, hact]
  | some n =>
    simp only [hp]
    have := primaryLen_bounds hp
    exact topTok_out defs (s.rest.take n) hact rfl this.1 this.2

theorem alistTok_out (defs : List (JStr × JStr)) (tag : JStr) (attrs : List (JStr × JStr))
    (tok : JStr) {s s1 : St} (hact : s.active = true)
    (h1 : s1 = { s with rest := s.rest.drop n }) (hn : 1 ≤ n) (hle : n ≤ s.rest.length) :
    StepOut defs s (alistTok tag attrs tok s1) := by
  have hr : s1.rest.length < s.rest.length := by rw [h1]; simp; omega
  simp only [alistTok]
  split
  · right; left
    exact ⟨by simp [h1, hact], by simp [h1], by simp [h1], by simp [h1]; omega⟩
  · split
    · right; left
      exact ⟨by simp [h1, hact], by simp [h1], by simp [h1], by simp [h1]; omega⟩
    · right; left
      exact ⟨by simp [h1, hact], by simp [h1], by simp [h1], by simp [h1]; omega⟩

theorem stepAlist_out (defs : List (JStr × JStr)) (tag : JStr) (attrs : List (JStr × JStr))
    (s : St) (hact : s.active = true) : StepOut defs s (stepAlist tag attrs s) := by
  simp only [stepAlist]
  cases hp : attlistLen s.rest with
  | none => simp only [hp]; left; simp
  | some n =>
    simp only [hp]
    have := attlistLen_bounds hp
    exact alistTok_out defs tag attrs (s.rest.take n) hact rfl this.1 this.2

theorem valueTok_out (defs : List (JStr × JStr)) (tag : JStr) (attrs : List (JStr × JStr))
    (aname tok : JStr) {s s1 : St} (hact : s.active = true)
    (h1 : s1 = { s with rest := s.rest.drop n }) (hn : 1 ≤ n) (hle : n ≤ s.rest.length) :
    StepOut defs s (valueTok defs tag attrs aname tok s1) := by
  simp only [valueTok]
  split
  · right; left
    exact ⟨by simp [h1, hact], by simp [h1], by simp [h1], by simp [h1]; omega⟩
  · split
    · rcases expand_shape defs (jsSlice tok 1 (-1)) s1 with ⟨e1, e2, e3, e4 | e4⟩ | ⟨e1, e2, e3, e4, e5, e6⟩
      · right; left
        refine ⟨by rw [e4]; simp [h1, hact], by rw [e2]; simp [h1], by rw [e3]; simp [h1], by rw [e1, h1]; simp; omega⟩
      · left
        exact ⟨e4, by rw [e2]; simp [h1], by rw [e3]; simp [h1]⟩
      · right; right; left
        refine ⟨jsSlice tok 1 (-1), ⟨s1.rest, s1.vlit, s1.vdlm⟩, ?_, e2, ?_, ?_, ?_, e3, ?_⟩
        · have : s1.names = s.names := by rw [h1]
          rw [this] at e1; exact e1
        · rw [e5, h1]
        · rw [e4, h1]
        · rw [h1]; simp; omega
        · rw [e6, h1]; exact hact
    · right; left
      exact ⟨by simp [h1, hact], by simp [h1], by simp [h1], by simp [h1]; omega⟩

theorem stepValue_out (defs : List (JStr × JStr)) (tag : JStr) (attrs : List (JStr × JStr))
    (aname : JStr) (s : St) (hact : s.active = true)
    (hlen : s.stk.length = s.names.length) :
    StepOut defs s (stepValue defs tag attrs aname s) := by
  simp only [stepValue]
  cases hv : s.vlit with
  | none => simp only [hv]; left; simp
  | some k =>
    simp only [hv]
    cases hp : litLen k s.rest with
    | none =>
      simp only [hp]
      split
      · left; simp
      · next hne =>
        match hstk : s.stk with
        | [] => exact absurd hstk hne
        | f :: fs =>
          obtain ⟨x, ns, hns, hb⟩ := back_shape hstk hlen
          right; right; right
          refine ⟨f, fs, hstk, by rw [hns]; simp, ?_, ?_, ?_, ?_⟩ <;> rw [hb] <;> simp [hns, hact]
    | some n =>
      simp only [hp]
      have := litLen_bounds hp
      exact valueTok_out defs tag attrs aname (s.rest.take n) hact (by rw [hv]) this.1 this.2

theorem step_out (defs : List (JStr × JStr)) (s : St) (hact : s.active = true)
    (hlen : s.stk.length = s.names.length) : StepOut defs s (step defs s) := by
  simp only [step, hact]
  simp only [Bool.true_eq_false, if_false]
  cases hm : s.mode with
  | top => simp only [hm]; exact stepTop_out defs s hact hlen
  | alist tag attrs => simp only [hm]; exact stepAlist_out defs tag attrs s hact
  | value tag attrs aname => simp only [hm]; exact stepValue_out defs tag attrs aname s hact hlen

theorem Inv_of_stepOut {defs : List (JStr × JStr)} {s r : St} (hInv : Inv defs s)
    (h : StepOut defs s r) : Inv defs r := by
  obtain ⟨hlen, hnd, hmem⟩ := hInv
  rcases h with ⟨_, h2, h3⟩ | ⟨_, h2, h3, _⟩ | ⟨ref, fr, hn1, hn2, hn3, hn4, _, _, _⟩ |
    ⟨f, fs, hp1, hp2, hp3, hp4, _, _⟩
  · exact ⟨by rw [h2, h3]; exact hlen, by rw [h3]; exact hnd, by rw [h3]; exact hmem⟩
  · exact ⟨by rw [h2, h3]; exact hlen, by rw [h3]; exact hnd, by rw [h3]; exact hmem⟩
  · refine ⟨by rw [hn4, hn3]; simp [hlen], ?_, ?_⟩
    · rw [hn3]
      exact List.Nodup.cons hn1 hnd
    · rw [hn3]
      intro x hx
      rcases List.mem_cons.mp hx with hx | hx
      · rw [hx]; exact hn2
      · exact hmem x hx
  · refine ⟨?_, ?_, ?_⟩
    · rw [hp3, hp4]
      rw [hp1] at hlen
      match hns : s.names, hp2 with
      | y :: ns, _ =>
        rw [hns] at hlen
        simp at hlen ⊢
        omega
    · rw [hp4]
      exact hnd.sublist (List.tail_sublist _)
    · rw [hp4]
      intro x hx
      exact hmem x (List.mem_of_mem_tail hx)

theorem step_inv {defs : List (JStr × JStr)} {s : St} (hInv : Inv defs s) :
    Inv defs (step defs s) := by
  by_cases hact : s.active = true
  · exact Inv_of_stepOut hInv (step_out defs s hact hInv.1)
  · have : step defs s = s := by
      simp only [step]
      rw [if_pos (by revert hact; cases s.active <;> simp)]
    rw [this]
    exact hInv

theorem steps_inv {defs : List (JStr × JStr)} {s : St} (hInv : Inv defs s) :
    ∀ n, Inv defs (steps defs n s) := by
  intro n
  induction n generalizing s with
  | zero => exact hInv
  | succ n ih => exact ih (step_inv hInv)

theorem init_inv (defs : List (JStr × JStr)) (src : JStr) : Inv defs (init src) := by
  refine ⟨rfl, List.nodup_nil, ?_⟩
  intro x hx
  simp [init] at hx

/-! ## Termination measure -/

/-- Weighted sum of remaining source lengths, the top of the stack carrying
the smallest power of the base. -/
def ws (B : Nat) : Nat → List Nat → Nat
  | _, [] => 0
  | e, x :: t => x * B ^ e + ws B (e + 1) t

/-- Remaining lengths of the stacked frames, top first. -/
def stkLens (s : St) : List Nat := s.stk.map (fun f => f.rest.length)

/-- The primary measure: expansion capacity dominates replacement lengths. -/
def mu (defs : List (JStr × JStr)) (s : St) : Nat :=
  ws (maxRep defs + 1) (defs.length - s.stk.length) (s.rest.length :: stkLens s)

/-- The full measure, breaking ties on pops by the stack length. -/
def nu (defs : List (JStr × JStr)) (s : St) : Nat :=
  mu defs s * (defs.length + 2) + s.stk.length

theorem names_le {defs : List (JStr × JStr)} {s : St} (hInv : Inv defs s) :
    s.names.length ≤ defs.length := by
  obtain ⟨_, hnd, hmem⟩ := hInv
  have h1 : s.names.length = s.names.toFinset.card := (List.toFinset_card_of_nodup hnd).symm
  have h2 : s.names.toFinset ⊆ (keysOf defs).toFinset := by
    intro x hx
    rw [List.mem_toFinset] at hx ⊢
    exact hmem x hx
  have h3 := Finset.card_le_card h2
  have h4 := (keysOf defs).toFinset_card_le
  have h5 : (keysOf defs).length = defs.length := by simp [keysOf]
  omega

theorem ws_head_lt {B e x y : Nat} {t : List Nat} (hB : 0 < B) (hxy : x < y) :
    ws B e (x :: t) < ws B e (y :: t) := by
  simp only [ws]
  have := Nat.mul_lt_mul_of_lt_of_le hxy (le_refl (B ^ e)) (Nat.pos_pow_of_pos e hB)
  omega

theorem ws_pop_le {B e x : Nat} {t : List Nat} : ws B (e + 1) t ≤ ws B e (x :: t) := by
  simp only [ws]
  omega

theorem ws_push_lt {B e rep t R : Nat} {L : List Nat} (hB : 0 < B) (hrep : rep < B)
    (ht : t < R) : ws B e (rep :: t :: L) < ws B (e + 1) (R :: L) := by
  simp only [ws]
  have hpow : 0 < B ^ e := Nat.pos_pow_of_pos e hB
  have h1 : rep * B ^ e < B ^ (e + 1) := by
    calc rep * B ^ e < B * B ^ e := Nat.mul_lt_mul_of_lt_of_le hrep (le_refl _) hpow
    _ = B ^ (e + 1) := by rw [pow_succ]; ring
  have h2 : (t + 1) * B ^ (e + 1) ≤ R * B ^ (e + 1) := Nat.mul_le_mul_right _ ht
  have h3 : (t + 1) * B ^ (e + 1) = t * B ^ (e + 1) + B ^ (e + 1) := by ring
  omega

theorem stepOut_nu {defs : List (JStr × JStr)} {s r : St} (hInv : Inv defs s)
    (h : StepOut defs s r) : r.active = false ∨ (Inv defs r ∧ nu defs r < nu defs s) := by
  have hInvr := Inv_of_stepOut hInv h
  rcases h with ⟨h1, _, _⟩ | ⟨h1, h2, h3, h4⟩ | ⟨ref, fr, hn1, hn2, hn3, hn4, hn5, hn6, hn7⟩ |
    ⟨f, fs, hp1, hp2, hp3, hp4, hp5, hp6⟩
  · left; exact h1
  · right
    refine ⟨hInvr, ?_⟩
    have hmu : mu defs r < mu defs s := by
      simp only [mu, stkLens, h2]
      exact ws_head_lt (Nat.succ_pos _) h4
    simp only [nu, h2]
    have := Nat.mul_lt_mul_of_lt_of_le hmu (le_refl (defs.length + 2)) (by omega)
    omega
  · right
    refine ⟨hInvr, ?_⟩
    have hkN : s.stk.length + 1 ≤ defs.length := by
      have h1 := names_le hInvr
      rw [hn3] at h1
      simp at h1
      have h2 := hInv.1
      omega
    have hmu : mu defs r < mu defs s := by
      simp only [mu, stkLens, hn4, List.map_cons, List.length_cons]
      have he : defs.length - s.stk.length = (defs.length - (s.stk.length + 1)) + 1 := by omega
      rw [he]
      exact ws_push_lt (Nat.succ_pos _) (by omega) hn5
    simp only [nu, hn4, List.length_cons]
    have hm2 : mu defs r * (defs.length + 2) + (defs.length + 2) ≤ mu defs s * (defs.length + 2) := by
      have : mu defs r + 1 ≤ mu defs s := hmu
      calc mu defs r * (defs.length + 2) + (defs.length + 2)
          = (mu defs r + 1) * (defs.length + 2) := by ring
        _ ≤ mu defs s * (defs.length + 2) := Nat.mul_le_mul_right _ this
    have hkN2 : s.stk.length + 1 < defs.length + 2 := by omega
    omega
  · right
    refine ⟨hInvr, ?_⟩
    have hkN : s.stk.length ≤ defs.length := by
      have h1 := names_le hInv
      have h2 := hInv.1
      omega
    have hk1 : 1 ≤ s.stk.length := by rw [hp1]; simp
    have hmu : mu defs r ≤ mu defs s := by
      simp only [mu, stkLens, hp3, hp5, hp1, List.map_cons, List.length_cons]
      have he : defs.length - fs.length = (defs.length - (fs.length + 1)) + 1 := by
        rw [hp1] at hkN
        simp at hkN
        omega
      rw [he]
      exact ws_pop_le
    have hm2 : mu defs r * (defs.length + 2) ≤ mu defs s * (defs.length + 2) :=
      Nat.mul_le_mul_right _ hmu
    simp only [nu, hp3, hp1, List.length_cons]
    omega

theorem steps_halt_aux (defs : List (JStr × JStr)) :
    ∀ v s, nu defs s ≤ v → Inv defs s → ∃ n, (steps defs n s).active = false := by
  intro v
  induction v with
  | zero =>
    intro s hv hInv
    by_cases hact : s.active = true
    · rcases stepOut_nu hInv (step_out defs s hact hInv.1) with h | ⟨_, h⟩
      · exact ⟨1, h⟩
      · omega
    · simp only [Bool.not_eq_true] at hact
      exact ⟨0, hact⟩
  | succ v ih =>
    intro s hv hInv
    by_cases hact : s.active = true
    · rcases stepOut_nu hInv (step_out defs s hact hInv.1) with h | ⟨hInv2, h⟩
      · exact ⟨1, h⟩
      · obtain ⟨n, hn⟩ := ih (step defs s) (by omega) hInv2
        exact ⟨n + 1, hn⟩
    · simp only [Bool.not_eq_true] at hact
      exact ⟨0, hact⟩

/-- The reader halts on every input and every entity table. -/
theorem fast_xml_halts (defs : List (JStr × JStr)) (src : JStr) :
    ∃ n, (steps defs n (init src)).active = false :=
  steps_halt_aux defs (nu defs (init src)) (init src) (le_refl _) (init_inv defs src)

/-! ## Event emission -/

/-- Whether an event is a text delivery. -/
def isText : Ev → Bool
  | .evText _ => true
  | _ => false

/-- Whether an event is a prolog delivery. -/
def isHead : Ev → Bool
  | .evHead _ => true
  | _ => false

/-- Everything one step can append to the output, and where text deliveries
can sit: text is flushed only in top mode, is never empty, and an emission
ending in text leaves top mode or deactivates the read. -/
def EmitShape (s : St) (evs : List Ev) (r : St) : Prop :=
  r.out = s.out ++ evs ∧
  (∀ b, Ev.evText b ∈ evs → b = s.buf ∧ s.buf ≠ []) ∧
  List.Chain' (fun a b => ¬(isText a = true ∧ isText b = true)) evs ∧
  (∀ e, evs.head? = some e → isText e = true → s.mode = .top) ∧
  (∀ e, evs.getLast? = some e → isText e = true → (r.mode ≠ .top ∨ r.active = false)) ∧
  (evs = [] → r.mode = .top → s.mode = .top) ∧
  (∀ e ∈ evs, isHead e = false)

theorem expand_keeps {defs : List (JStr × JStr)} {ref : JStr} {s : St} :
    (expand defs ref s).out = s.out ∧ (expand defs ref s).mode = s.mode := by
  simp only [expand]
  split
  · split
    · split <;> simp
    · simp
  · split
    · simp
    · split <;> simp

theorem back_keeps {s : St} :
    (back s).out = s.out ∧ (back s).mode = s.mode ∧ (back s).active = s.active ∧
      (back s).buf = s.buf := by
  simp only [back]
  split <;> simp

theorem step_emit (defs : List (JStr × JStr)) (s : St) (hact : s.active = true) :
    ∃ evs, EmitShape s evs (step defs s) := by
  simp only [step, hact, Bool.true_eq_false, if_false]
  cases hm : s.mode with
  | top =>
    simp only [stepTop]
    cases hp : primaryLen s.rest with
    | none =>
      simp only [hp]
      split
      · exact ⟨[], by simp [EmitShape, hm]⟩
      · refine ⟨[], by simp [EmitShape]; obtain ⟨h1, h2, h3, _⟩ := back_keeps (s := s); simp [h1, h2, hm]⟩
    | some n =>
      simp only [hp]
      set s1 : St := { s with rest := s.rest.drop n } with hs1
      have hbuf1 : s1.buf = s.buf := rfl
      have hout1 : s1.out = s.out := rfl
      simp only [topTok]
      split
      · split
        · by_cases hb : s.buf = []
          · have hfl : flush s1 = s1 := by simp [flush, hb]
            rw [hfl]
            split
            · exact ⟨[], by simp [EmitShape, hm]⟩
            · refine ⟨[.evCtag ((s.rest.take n).drop 2)], ?_⟩
              simp [EmitShape, isText, isHead, hm]
          · have hfl : flush s1 = { s1 with out := s1.out ++ [.evText s1.buf], buf := [] } := by
              simp [flush, hb]
            rw [hfl]
            split
            · refine ⟨[.evText s.buf], ?_⟩
              simp [EmitShape, isText, isHead, hm, hbuf1, hout1, hb]
            · refine ⟨[.evText s.buf, .evCtag ((s.rest.take n).drop 2)], ?_⟩
              simp [EmitShape, isText, isHead, hm, hbuf1, hout1, hb]
        · split
          · exact ⟨[], by simp [EmitShape, hm]⟩
          · split
            · by_cases hb : s.buf = []
              · have hfl : flush s1 = s1 := by simp [flush, hb]
                rw [hfl]
                exact ⟨[], by simp [EmitShape, hm]⟩
              · have hfl : flush s1 = { s1 with out := s1.out ++ [.evText s1.buf], buf := [] } := by
                  simp [flush, hb]
                rw [hfl]
                refine ⟨[.evText s.buf], ?_⟩
                simp [EmitShape, isText, isHead, hm, hbuf1, hout1, hb]
            · exact ⟨[], by simp [EmitShape, hm]⟩
      · split
        · obtain ⟨h1, h2⟩ := @expand_keeps defs (jsSlice (s.rest.take n) 1 (-1)) s1
          refine ⟨[], ?_⟩
          simp [EmitShape, h1, h2, hout1, hm]
        · exact ⟨[], by simp [EmitShape, hm]⟩
  | alist tag attrs =>
    simp only [stepAlist]
    cases hp : attlistLen s.rest with
    | none =>
      simp only [hp]
      exact ⟨[], by simp [EmitShape, hm]⟩
    | some n =>
      simp only [hp]
      simp only [alistTok]
      split
      · split
        · refine ⟨[.evOtag tag attrs], ?_⟩
          simp [EmitShape, isText, isHead]
        · refine ⟨[.evOtag tag attrs, .evCtag tag], ?_⟩
          simp [EmitShape, isText, isHead]
      · split
        · exact ⟨[], by simp [EmitShape, hm]⟩
        · exact ⟨[], by simp [EmitShape, hm]⟩
  | value tag attrs aname =>
    simp only [stepValue]
    cases hv : s.vlit with
    | none =>
      simp only [hv]
      exact ⟨[], by simp [EmitShape, hm]⟩
    | some k =>
      simp only [hv]
      cases hp : litLen k s.rest with
      | none =>
        simp only [hp]
        split
        · exact ⟨[], by simp [EmitShape, hm]⟩
        · refine ⟨[], ?_⟩
          simp [EmitShape]
          obtain ⟨h1, h2, h3, _⟩ := back_keeps (s := s)
          simp [h1, h2, hm]
      | some n =>
        simp only [hp]
        simp only [valueTok]
        split
        · exact ⟨[], by simp [EmitShape, hm]⟩
        · split
          · refine ⟨[], ?_, ?_, ?_, ?_, ?_, ?_, ?_⟩
            · simpa using expand_keeps.1
            · simp
            · simp
            · simp
            · simp
            · intro _ h
              rw [expand_keeps.2] at h
              simpa using h
            · simp
          · exact ⟨[], by simp [EmitShape, hm]⟩

theorem step_frozen {defs : List (JStr × JStr)} {s : St} (h : s.active = false) :
    step defs s = s := by
  simp [step, h]

theorem steps_frozen {defs : List (JStr × JStr)} {s : St} (h : s.active = false) (n : Nat) :
    steps defs n s = s := by
  induction n with
  | zero => rfl
  | succ n ih => simp only [steps, step_frozen h, ih]

/-- The output always consists of the initial prolog delivery followed by
structural events only. -/
def HeadShape (p : JStr) (s : St) : Prop :=
  ∃ t, s.out = Ev.evHead p :: t ∧ ∀ e ∈ t, isHead e = false

theorem headShape_step {defs : List (JStr × JStr)} {p : JStr} {s : St} (hs : HeadShape p s) :
    HeadShape p (step defs s) := by
  by_cases hact : s.active = true
  · obtain ⟨evs, hout, _, _, _, _, _, hno⟩ := step_emit defs s hact
    obtain ⟨t, ht, hth⟩ := hs
    refine ⟨t ++ evs, by rw [hout, ht]; simp, ?_⟩
    intro e he
    rcases List.mem_append.mp he with he | he
    · exact hth e he
    · exact hno e he
  · simp only [Bool.not_eq_true] at hact
    rw [step_frozen hact]
    exact hs

theorem headShape_steps {defs : List (JStr × JStr)} {p : JStr} {s : St} (hs : HeadShape p s)
    (n : Nat) : HeadShape p (steps defs n s) := by
  induction n generalizing s with
  | zero => exact hs
  | succ n ih => exact ih (headShape_step hs)

/-- The merged-text output discipline: no empty text delivery, no two adjacent
text deliveries, and in active top-level states the output never ends with a
text delivery. -/
def TextOk (s : St) : Prop :=
  List.Chain' (fun a b => ¬(isText a = true ∧ isText b = true)) s.out ∧
  (∀ b, Ev.evText b ∈ s.out → b ≠ []) ∧
  (s.active = true → s.mode = .top → ∀ e, s.out.getLast? = some e → isText e = false)

theorem textOk_step {defs : List (JStr × JStr)} {s : St} (hs : TextOk s) :
    TextOk (step defs s) := by
  by_cases hact : s.active = true
  · obtain ⟨evs, hout, hne, hch, hhd, hlast, hnil, _⟩ := step_emit defs s hact
    obtain ⟨c1, c2, c3⟩ := hs
    refine ⟨?_, ?_, ?_⟩
    · rw [hout]
      apply List.Chain'.append c1 hch
      intro x hx y hy
      intro ⟨hxt, hyt⟩
      have hmode := hhd y hy hyt
      have := c3 hact hmode x hx
      rw [hxt] at this
      cases this
    · rw [hout]
      intro b hb
      rcases List.mem_append.mp hb with hb | hb
      · exact c2 b hb
      · obtain ⟨h1, h2⟩ := hne b hb
        rw [h1]
        exact h2
    · intro hract hrmode e hle
      cases evs with
      | nil =>
        simp at hout
        rw [hout] at hle
        exact c3 hact (hnil rfl hrmode) e hle
      | cons e1 t1 =>
        rw [hout, List.getLast?_append_cons] at hle
        by_cases het : isText e = true
        · rcases hlast e hle het with hc | hc
          · exact absurd hrmode hc
          · rw [hract] at hc; cases hc
        · simpa using het
  · simp only [Bool.not_eq_true] at hact
    rw [step_frozen hact]
    exact hs

theorem textOk_steps {defs : List (JStr × JStr)} {s : St} (hs : TextOk s) (n : Nat) :
    TextOk (steps defs n s) := by
  induction n generalizing s with
  | zero => exact hs
  | succ n ih => exact ih (textOk_step hs)

/-! ## Token-level scanner lemmas

These compute the scanners on rendered well-formed constructs. -/

theorem runLen_cons_pos {p : Nat → Bool} {c : Nat} {l : JStr} (h : p c = true) :
    runLen p (c :: l) = runLen p l + 1 := by
  simp [runLen, List.takeWhile_cons, h]

theorem runLen_cons_neg {p : Nat → Bool} {c : Nat} {l : JStr} (h : p c = false) :
    runLen p (c :: l) = 0 := by
  simp [runLen, List.takeWhile_cons, h]

theorem runLen_zero_of_head {p : Nat → Bool} {l : JStr}
    (h : ∀ c, l.head? = some c → p c = false) : runLen p l = 0 := by
  match l with
  | [] => rfl
  | c :: t => exact runLen_cons_neg (h c rfl)

theorem runLen_append_all {p : Nat → Bool} {l1 l2 : JStr} (h : ∀ x ∈ l1, p x = true) :
    runLen p (l1 ++ l2) = l1.length + runLen p l2 := by
  induction l1 with
  | nil => simp
  | cons x t ih =>
    have hx := h x (by simp)
    simp only [List.cons_append, runLen_cons_pos hx, List.length_cons]
    rw [ih (fun y hy => h y (by simp [hy]))]
    omega

theorem runLen_stop {p : Nat → Bool} {l1 l2 : JStr} (h : ∀ x ∈ l1, p x = true)
    (hs : ∀ c, l2.head? = some c → p c = false) : runLen p (l1 ++ l2) = l1.length := by
  rw [runLen_append_all h, runLen_zero_of_head hs]
  simp

theorem idxOf?_cons_self {c : Nat} {l : JStr} : idxOf? c (c :: l) = some 0 := by
  simp [idxOf?]

theorem idxOf?_append_not {c : Nat} {l1 l2 : JStr} (h : ∀ x ∈ l1, x ≠ c) :
    idxOf? c (l1 ++ c :: l2) = some l1.length := by
  induction l1 with
  | nil => simp [idxOf?]
  | cons x t ih =>
    have hx := h x (by simp)
    simp only [List.cons_append, idxOf?, List.append_eq]
    rw [if_neg hx, ih (fun y hy => h y (by simp [hy]))]
    simp

theorem isPrefixOf_append {pat l e : JStr} (h : pat.isPrefixOf l = true) :
    pat.isPrefixOf (l ++ e) = true := by
  rw [List.isPrefixOf_iff_prefix] at h ⊢
  exact h.trans (List.prefix_append l e)

theorem subIdx?_append {pat l e : JStr} {i : Nat} (h : subIdx? pat l = some i) :
    subIdx? pat (l ++ e) = some i := by
  induction l generalizing i with
  | nil =>
    simp only [subIdx?] at h
    split at h
    · cases h
      next hp =>
        have hp2 : pat = [] := by
          cases pat with
          | nil => rfl
          | cons p ps => simp [List.isPrefixOf] at hp
        subst hp2
        cases e with
        | nil => simp [subIdx?]
        | cons x t => simp [subIdx?, List.isPrefixOf]
    · cases h
  | cons x t ih =>
    simp only [subIdx?, List.append_eq, List.cons_append] at h ⊢
    split at h
    · next hp =>
      cases h
      rw [if_pos (by simpa using isPrefixOf_append (l := x :: t) (e := e) hp)]
    · next hp =>
      match hr : subIdx? pat t with
      | none => rw [hr] at h; cases h
      | some j =>
        rw [hr] at h
        simp only [Option.map_some'] at h
        cases h
        have hfit := subIdx?_le hr
        have hp3 : ¬pat.isPrefixOf (x :: t ++ e) = true := by
          intro hc
          apply hp
          have hpre := List.isPrefixOf_iff_prefix.mp hc
          have h1 : pat = ((x :: t) ++ e).take pat.length :=
            List.prefix_iff_eq_take.mp hpre
          have h2 : ((x :: t) ++ e).take pat.length = (x :: t).take pat.length :=
            List.take_append_of_le_length (by simp; omega)
          rw [List.isPrefixOf_iff_prefix]
          rw [h1, h2]
          exact List.take_prefix _ _
        rw [if_neg (by simpa using hp3)]
        rw [ih hr]
        rfl

/-! ## Well-formed documents

An inductive grammar of entity-free documents, rendered to source text.  The
well-formedness conditions are exactly what the claims assume: no entity
references, no malformed constructs, and (since the reader merges adjacent
text) no two adjacent plain-text nodes. -/

mutual
inductive XNode where
  | elem (name : JStr) (attrs : List (JStr × JStr)) (void : Bool) (kids : XForest)
  | txt (s : JStr)
  | cdata (s : JStr)
  | cmt (s : JStr)
  | pin (s : JStr)
inductive XForest where
  | fnil
  | fcons (n : XNode) (f : XForest)
end

/-- Render an attribute list: ` name="value"` for each attribute. -/
def renderA : List (JStr × JStr) → JStr
  | [] => []
  | (a, v) :: t => 32 :: (a ++ 61 :: 34 :: (v ++ 34 :: renderA t))

mutual
/-- Render a node back to source text (`<![CDATA[`, `<!--`, `<?` spelled as
code units). -/
def renderN : XNode → JStr
  | .elem nm attrs void kids =>
    60 :: (nm ++ renderA attrs ++
      (if void then [47, 62]
       else 62 :: (renderF kids ++ 60 :: 47 :: (nm ++ [62]))))
  | .txt s => s
  | .cdata s => [60, 33, 91, 67, 68, 65, 84, 65, 91] ++ s ++ [93, 93, 62]
  | .cmt s => [60, 33, 45, 45] ++ s ++ [45, 45, 62]
  | .pin s => [60, 63] ++ s ++ [63, 62]
def renderF : XForest → JStr
  | .fnil => []
  | .fcons n f => renderN n ++ renderF f
end

/-- A tag name: non-empty, in the tag-name run class, not starting like a
comment, declaration or processing instruction. -/
def nameOkB (n : JStr) : Bool :=
  !n.isEmpty && n.all nameChar &&
    (match n.head? with
     | some c => !(c == 33) && !(c == 63)
     | none => false)

/-- Attribute-name characters: no `=`, no whitespace, no `/>` or quotes. -/
def attrChar (c : Nat) : Bool :=
  !(c == 61) && !wsChar c && !(c == 47) && !(c == 62) && !(c == 34) && !(c == 39)

def attrNameOkB (a : JStr) : Bool := !a.isEmpty && a.all attrChar

/-- Double-quoted attribute values without quotes or references. -/
def valChar (c : Nat) : Bool := !(c == 34) && !(c == 38)

def valOkB (v : JStr) : Bool := v.all valChar

def txtChar (c : Nat) : Bool := !(c == 60) && !(c == 38)

def txtOkB (s : JStr) : Bool := !s.isEmpty && s.all txtChar

/-- The CDATA body may not contain `]]>` (first occurrence of the terminator
after `<![` is the final one). -/
def cdataOkB (s : JStr) : Bool :=
  decide (subIdx? [93, 93, 62] ([67, 68, 65, 84, 65, 91] ++ s ++ [93, 93, 62]) =
    some (s.length + 6))

/-- The comment body may not contain `-->` (relative to the lazy `<!-` head). -/
def cmtOkB (s : JStr) : Bool :=
  decide (subIdx? [45, 45, 62] (45 :: (s ++ [45, 45, 62])) = some (s.length + 1))

/-- The processing-instruction body may not contain `?>`. -/
def piOkB (s : JStr) : Bool :=
  decide (subIdx? [63, 62] (s ++ [63, 62]) = some s.length)

def isTxtN : XNode → Bool
  | .txt _ => true
  | _ => false

def headTxt : XForest → Bool
  | .fnil => false
  | .fcons n _ => isTxtN n

mutual
def wfN : XNode → Bool
  | .elem nm attrs void kids =>
    nameOkB nm && attrs.all (fun p => attrNameOkB p.1 && valOkB p.2) &&
      decide (attrs.map Prod.fst).Nodup &&
      (if void then (match kids with | .fnil => true | _ => false) else true) && wfF kids
  | .txt s => txtOkB s
  | .cdata s => cdataOkB s
  | .cmt s => cmtOkB s
  | .pin s => piOkB s
def wfF : XForest → Bool
  | .fnil => true
  | .fcons n f => wfN n && wfF f && !(isTxtN n && headTxt f)
end

/-- Flush of the text accumulator, as events. -/
def flushE (acc : JStr) : List Ev := if acc = [] then [] else [Ev.evText acc]

mutual
/-- The canonical hook sequence of a node, given the pending merged text, and
the pending text after it. -/
def evN : XNode → JStr → List Ev × JStr
  | .elem nm attrs void kids, acc =>
    (flushE acc ++ Ev.evOtag nm attrs ::
      (if void then [Ev.evCtag nm]
       else (evF kids []).1 ++ flushE (evF kids []).2 ++ [Ev.evCtag nm]), [])
  | .txt s, acc => ([], acc ++ s)
  | .cdata s, acc => ([], acc ++ s)
  | .cmt _, acc => ([], acc)
  | .pin _, acc => ([], acc)
def evF : XForest → JStr → List Ev × JStr
  | .fnil, acc => ([], acc)
  | .fcons n f, acc =>
    ((evN n acc).1 ++ (evF f (evN n acc).2).1, (evF f (evN n acc).2).2)
end

/-- A machine state with empty stacks, as reached while reading an
entity-free document. -/
def mkSt (rest : JStr) (mode : Mode) (vl : Option LitKind) (vd : Option JStr)
    (buf : JStr) (out : List Ev) : St :=
  ⟨rest, mode, vl, vd, [], [], buf, out, true⟩

theorem steps_add (defs : List (JStr × JStr)) (a b : Nat) (s : St) :
    steps defs (a + b) s = steps defs b (steps defs a s) := by
  induction a generalizing s with
  | zero => simp [steps]
  | succ a ih =>
    have h1 : a + 1 + b = (a + b) + 1 := by omega
    rw [h1]
    simp only [steps]
    exact ih (step defs s)

theorem take_len_append {l1 l2 : JStr} {n : Nat} (h : n = l1.length) :
    (l1 ++ l2).take n = l1 := by
  subst h
  exact List.take_left _ _

theorem drop_len_append {l1 l2 : JStr} {n : Nat} (h : n = l1.length) :
    (l1 ++ l2).drop n = l2 := by
  subst h
  exact List.drop_left _ _

theorem primary_text {s rest0 : JStr} (hs : txtOkB s = true)
    (hnext : ∀ c, rest0.head? = some c → c = 60) :
    primaryLen (s ++ rest0) = some s.length := by
  simp only [txtOkB, Bool.and_eq_true] at hs
  obtain ⟨hne, hall⟩ := hs
  rw [List.all_eq_true] at hall
  match s, hne with
  | c :: t, _ =>
    have hc := hall c (by simp)
    simp only [txtChar, Bool.and_eq_true, Bool.not_eq_true', beq_eq_false_iff_ne] at hc
    simp only [List.cons_append, primaryLen]
    rw [if_neg (by simp)]
    rw [if_neg (by simp only [List.head?_cons]; intro he; cases he; exact hc.2 rfl)]
    rw [if_neg (by simp only [List.head?_cons]; intro he; cases he; exact hc.1 rfl)]
    simp only [textLen]
    have hrun : runLen (fun c => !(c == 60 || c == 38)) ((c :: t) ++ rest0) = (c :: t).length := by
      apply runLen_stop
      · intro x hx
        have := hall x hx
        simp only [txtChar, Bool.and_eq_true, Bool.not_eq_true', beq_eq_false_iff_ne] at this
        simp [this.1, this.2]
      · intro c0 h0
        have := hnext c0 h0
        subst this
        rfl
    rw [List.cons_append] at hrun
    rw [hrun]
    rw [if_pos (by simp)]

theorem take3_ne {l : JStr} {c a b : Nat} (h : l.head? = some c) (hne : c ≠ a) :
    (60 :: l).take 3 ≠ [60, a, b] := by
  match l, h with
  | x :: t, h =>
    have hc0 : x = c := by simpa using h
    subst hc0
    intro hc
    simp only [List.take_succ_cons, List.cons.injEq] at hc
    exact hne hc.2.1

theorem take2_ne {l : JStr} {c0 : Nat} (hh : l.head? = some c0) (hne : c0 ≠ 47) :
    (60 :: l).take 2 ≠ [60, 47] := by
  match l, hh with
  | c :: t, hh =>
    have hc0 : c = c0 := by simpa using hh
    subst hc0
    intro hc
    simp only [List.take_succ_cons, List.cons.injEq] at hc
    exact hne hc.2.1

theorem primary_cdata {s r : JStr} (h : cdataOkB s = true) :
    primaryLen (60 :: 33 :: 91 :: 67 :: 68 :: 65 :: 84 :: 65 :: 91 ::
      (s ++ 93 :: 93 :: 62 :: r)) = some (s.length + 12) := by
  have hsub := subIdx?_append (e := r) (of_decide_eq_true h)
  simp only [List.cons_append, List.nil_append, List.append_assoc] at hsub
  simp only [primaryLen]
  rw [if_neg (by simp), if_neg (by simp), if_pos (by simp)]
  have hc : cdataLen (60 :: 33 :: 91 :: 67 :: 68 :: 65 :: 84 :: 65 :: 91 ::
      (s ++ 93 :: 93 :: 62 :: r)) = some (s.length + 12) := by
    simp only [cdataLen, List.take_succ_cons, List.take_zero, List.drop_succ_cons,
      List.drop_zero]
    rw [if_pos trivial, hsub]
    simp only [Option.map_some', Option.some.injEq]
  rw [hc]
  rfl

theorem primary_cmt {s r : JStr} (h : cmtOkB s = true) :
    primaryLen (60 :: 33 :: 45 :: 45 :: (s ++ 45 :: 45 :: 62 :: r)) =
      some (s.length + 7) := by
  have hsub := subIdx?_append (e := r) (of_decide_eq_true h)
  simp only [List.cons_append, List.nil_append, List.append_assoc] at hsub
  simp only [primaryLen]
  rw [if_neg (by simp), if_neg (by simp), if_pos (by simp)]
  have hcd : cdataLen (60 :: 33 :: 45 :: 45 :: (s ++ 45 :: 45 :: 62 :: r)) = none := by
    simp only [cdataLen, List.take_succ_cons, List.take_zero]
    rw [if_neg (by simp)]
  have hc : commentLen (60 :: 33 :: 45 :: 45 :: (s ++ 45 :: 45 :: 62 :: r)) =
      some (s.length + 7) := by
    simp only [commentLen, List.take_succ_cons, List.take_zero, List.drop_succ_cons,
      List.drop_zero]
    rw [if_pos trivial, hsub]
    simp only [Option.map_some', Option.some.injEq]
  rw [hcd, hc]
  rfl

theorem primary_pin {s r : JStr} (h : piOkB s = true) :
    primaryLen (60 :: 63 :: (s ++ 63 :: 62 :: r)) = some (s.length + 4) := by
  have hsub := subIdx?_append (e := r) (of_decide_eq_true h)
  simp only [List.cons_append, List.nil_append, List.append_assoc] at hsub
  simp only [primaryLen]
  rw [if_neg (by simp), if_neg (by simp), if_pos (by simp)]
  have hcd : cdataLen (60 :: 63 :: (s ++ 63 :: 62 :: r)) = none := by
    simp only [cdataLen]
    rw [if_neg ?h1]
    case h1 =>
      intro hc
      simp only [List.take_succ_cons] at hc
      simp at hc
  have hcm : commentLen (60 :: 63 :: (s ++ 63 :: 62 :: r)) = none := by
    simp only [commentLen]
    rw [if_neg ?h2]
    case h2 =>
      intro hc
      simp only [List.take_succ_cons] at hc
      simp at hc
  have hc : piLen (60 :: 63 :: (s ++ 63 :: 62 :: r)) = some (s.length + 4) := by
    simp only [piLen, List.take_succ_cons, List.take_zero, List.drop_succ_cons,
      List.drop_zero]
    rw [if_pos trivial, hsub]
    simp only [Option.map_some', Option.some.injEq]
  rw [hcd, hcm, hc]
  rfl

theorem primary_open {nm rest1 : JStr} (h : nameOkB nm = true)
    (hstop : ∀ c, rest1.head? = some c → nameChar c = false) :
    primaryLen (60 :: (nm ++ rest1)) = some (nm.length + 1) := by
  simp only [nameOkB, Bool.and_eq_true] at h
  obtain ⟨⟨hne, hall⟩, hhd⟩ := h
  rw [List.all_eq_true] at hall
  match nm, hne with
  | c0 :: t, _ =>
    simp only [List.head?_cons] at hhd
    simp only [Bool.and_eq_true, Bool.not_eq_true', beq_eq_false_iff_ne] at hhd
    have hc0 := hall c0 (by simp)
    have hc047 : c0 ≠ 47 := by
      intro he
      rw [he] at hc0
      simp [nameChar] at hc0
    simp only [List.cons_append, primaryLen]
    rw [if_neg (by simp), if_neg (by simp), if_pos (by simp)]
    have hcd : cdataLen (60 :: c0 :: (t ++ rest1)) = none := by
      simp only [cdataLen]
      rw [if_neg (take3_ne (by simp) hhd.1)]
    have hcm : commentLen (60 :: c0 :: (t ++ rest1)) = none := by
      simp only [commentLen]
      rw [if_neg (take3_ne (by simp) hhd.1)]
    have hpi : piLen (60 :: c0 :: (t ++ rest1)) = none := by
      simp only [piLen]
      rw [if_neg ?h3]
      case h3 =>
        intro hc
        simp only [List.take_succ_cons] at hc
        cases hc
        next => exact hhd.2 rfl
    have hth : tagHeadLen (60 :: c0 :: (t ++ rest1)) = some ((c0 :: t).length + 1) := by
      simp only [tagHeadLen]
      rw [if_neg (take2_ne (by simp) hc047), if_pos (by simp)]
      have hrun : runLen nameChar ((c0 :: t) ++ rest1) = (c0 :: t).length :=
        runLen_stop (fun x hx => hall x hx) hstop
      simp only [List.cons_append] at hrun
      simp only [List.drop_succ_cons, List.drop_zero]
      rw [hrun]
      rw [if_pos (by simp)]
    rw [hcd, hcm, hpi, hth]
    rfl

theorem primary_ctag {nm r : JStr} (h : nameOkB nm = true) :
    primaryLen (60 :: 47 :: (nm ++ 62 :: r)) = some (nm.length + 2) := by
  simp only [nameOkB, Bool.and_eq_true] at h
  obtain ⟨⟨hne, hall⟩, _⟩ := h
  rw [List.all_eq_true] at hall
  simp only [primaryLen]
  rw [if_neg (by simp), if_neg (by simp), if_pos (by simp)]
  have hcd : cdataLen (60 :: 47 :: (nm ++ 62 :: r)) = none := by
    simp only [cdataLen]
    rw [if_neg (take3_ne (c := 47) (a := 33) (by simp) (by decide))]
  have hcm : commentLen (60 :: 47 :: (nm ++ 62 :: r)) = none := by
    simp only [commentLen]
    rw [if_neg (take3_ne (c := 47) (a := 33) (by simp) (by decide))]
  have hpi : piLen (60 :: 47 :: (nm ++ 62 :: r)) = none := by
    simp only [piLen]
    rw [if_neg ?h4]
    case h4 =>
      intro hc
      simp only [List.take_succ_cons] at hc
      simp at hc
  have hth : tagHeadLen (60 :: 47 :: (nm ++ 62 :: r)) = some (nm.length + 2) := by
    simp only [tagHeadLen, List.take_succ_cons, List.take_zero]
    rw [if_pos trivial]
    have hrun : runLen nameChar (nm ++ 62 :: r) = nm.length :=
      runLen_stop (fun x hx => hall x hx) (by intro c hc; simp at hc; rw [← hc]; rfl)
    simp only [List.drop_succ_cons, List.drop_zero]
    rw [hrun]
    rw [if_pos (by match nm, hne with | c :: t, _ => simp)]
  rw [hcd, hcm, hpi, hth]
  rfl

theorem attlist_gt {rest : JStr} : attlistLen (62 :: rest) = some 1 := by
  simp only [attlistLen]
  rw [if_neg (by simp [List.take_succ_cons]), if_pos (by simp)]

theorem attlist_void {rest : JStr} : attlistLen (47 :: 62 :: rest) = some 2 := by
  simp only [attlistLen, List.take_succ_cons, List.take_zero]
  rw [if_pos trivial]

theorem attrChar_facts {c : Nat} (h : attrChar c = true) :
    c ≠ 61 ∧ wsChar c = false ∧ c ≠ 47 ∧ c ≠ 62 ∧ c ≠ 34 ∧ c ≠ 39 := by
  simp only [attrChar, Bool.and_eq_true, Bool.not_eq_true', beq_eq_false_iff_ne] at h
  exact ⟨h.1.1.1.1.1, h.1.1.1.1.2, h.1.1.1.2, h.1.1.2, h.1.2, h.2⟩

theorem valChar_facts {c : Nat} (h : valChar c = true) : c ≠ 34 ∧ c ≠ 38 := by
  simp only [valChar, Bool.and_eq_true, Bool.not_eq_true', beq_eq_false_iff_ne] at h
  exact h

theorem txtChar_facts {c : Nat} (h : txtChar c = true) : c ≠ 60 ∧ c ≠ 38 := by
  simp only [txtChar, Bool.and_eq_true, Bool.not_eq_true', beq_eq_false_iff_ne] at h
  exact h

theorem attlist_ws {l : JStr} (hl : ∀ c, l.head? = some c → wsChar c = false) :
    attlistLen (32 :: l) = some 1 := by
  simp only [attlistLen]
  rw [if_neg (by simp [List.take_succ_cons]), if_neg (by simp)]
  have hrun : runLen wsChar (32 :: l) = 1 := by
    rw [runLen_cons_pos rfl, runLen_zero_of_head hl]
  simp only [hrun]
  rw [if_pos (le_refl 1)]

theorem attlist_attr {a r : JStr} (h : attrNameOkB a = true) :
    attlistLen (a ++ 61 :: 34 :: r) = some (a.length + 2) := by
  simp only [attrNameOkB, Bool.and_eq_true] at h
  obtain ⟨hne, hall⟩ := h
  rw [List.all_eq_true] at hall
  match a, hne with
  | a0 :: t, _ =>
    have h0 := attrChar_facts (hall a0 (by simp))
    simp only [attlistLen]
    rw [if_neg ?hq1, if_neg ?hq2, if_neg ?hq3]
    case hq1 =>
      simp only [List.cons_append, List.take_succ_cons, List.cons.injEq]
      intro hc
      exact h0.2.2.1 hc.1
    case hq2 =>
      simp only [List.cons_append, List.head?_cons, Option.some.injEq]
      intro hc
      exact h0.2.2.2.1 hc
    case hq3 =>
      have hz : runLen wsChar ((a0 :: t) ++ 61 :: 34 :: r) = 0 := by
        apply runLen_zero_of_head
        intro c hc
        simp only [List.cons_append, List.head?_cons, Option.some.injEq] at hc
        subst hc
        exact h0.2.1
      simp only [List.cons_append] at hz ⊢
      rw [hz]
      simp
    have hidx : idxOf? 61 ((a0 :: t) ++ 61 :: 34 :: r) = some (a0 :: t).length :=
      idxOf?_append_not (fun x hx => (attrChar_facts (hall x hx)).1)
    simp only [hidx]
    rw [if_pos (by simp)]
    have hget : ((a0 :: t) ++ 61 :: 34 :: r).get? ((a0 :: t).length + 1) = some 34 := by
      rw [List.get?_append_right (by simp)]
      simp
    rw [if_pos (Or.inl hget)]

theorem lit_dq_quote {rest : JStr} : litLen .dq (34 :: rest) = some 1 := by
  simp only [litLen]
  rw [if_neg (by simp), if_pos (by simp [litQuote])]

theorem lit_dq_run {v r : JStr} (hne : v ≠ []) (hall : ∀ x ∈ v, valChar x = true) :
    litLen .dq (v ++ 34 :: r) = some v.length := by
  match v, hne with
  | v0 :: t, _ =>
    have h0 := valChar_facts (hall v0 (by simp))
    simp only [litLen]
    rw [if_neg (by
      simp only [List.cons_append, List.head?_cons, Option.some.injEq]
      intro hc
      exact h0.2 hc)]
    rw [if_neg (by
      simp only [litQuote, List.cons_append, List.head?_cons]
      intro hc
      have := hc.1
      simp only [Option.some.injEq] at this
      exact h0.1 this)]
    have hrun : runLen (litRun .dq) ((v0 :: t) ++ 34 :: r) = (v0 :: t).length := by
      apply runLen_stop
      · intro x hx
        have hv := valChar_facts (hall x hx)
        simp only [litRun, litQuote, Bool.not_eq_true', Bool.or_eq_false_iff,
          beq_eq_false_iff_ne, decide_eq_false_iff_not]
        constructor
        · exact hv.2
        · intro hc
          simp only [Option.some.injEq] at hc
          exact hv.1 hc.symm
      · intro c hc
        simp only [List.head?_cons, Option.some.injEq] at hc
        subst hc
        rfl
    simp only [List.cons_append] at hrun ⊢
    rw [hrun]
    rw [if_pos (by simp)]

theorem jsSlice_cdata {p s q : JStr} (hpre : p.length = 9) (hpost : q.length = 3) :
    jsSlice (p ++ (s ++ q)) 9 (-3) = s := by
  simp only [jsSlice]
  have hn : ((p ++ (s ++ q)).length : Int) = 12 + (s.length : Int) := by
    push_cast [List.length_append, hpre, hpost]
    omega
  rw [hn]
  rw [if_neg (show ¬((9 : Int) < 0) by omega), if_pos (show ((-3) : Int) < 0 by omega)]
  have h1 : (9 : Int) ⊓ (12 + (s.length : Int)) = 9 := min_eq_left (by omega)
  have h2 : (12 + (s.length : Int) + (-3)) ⊔ 0 = 12 + (s.length : Int) + (-3) :=
    max_eq_left (by omega)
  rw [h1, h2]
  have h3 : ((9 : Int)).toNat = 9 := by omega
  have h4 : (12 + (s.length : Int) + (-3)).toNat = 9 + s.length := by omega
  rw [h3, h4]
  have h5 : (p ++ (s ++ q)).drop 9 = s ++ q := drop_len_append hpre.symm
  rw [h5]
  have h6 : 9 + s.length - 9 = s.length := by omega
  rw [h6]
  exact List.take_left _ _

theorem step_txt {defs : List (JStr × JStr)} {s rest0 : JStr} {vl : Option LitKind}
    {vd : Option JStr} {buf : JStr} {out : List Ev} (hs : txtOkB s = true)
    (hnext : ∀ c, rest0.head? = some c → c = 60) :
    step defs (mkSt (s ++ rest0) .top vl vd buf out) =
      mkSt rest0 .top vl vd (buf ++ s) out := by
  have hp := primary_text hs hnext
  have hhd : ∃ c0 t0, s = c0 :: t0 ∧ c0 ≠ 60 ∧ c0 ≠ 38 := by
    simp only [txtOkB, Bool.and_eq_true] at hs
    obtain ⟨hne, hall⟩ := hs
    rw [List.all_eq_true] at hall
    match s, hne with
    | c0 :: t0, _ =>
      have := txtChar_facts (hall c0 (by simp))
      exact ⟨c0, t0, rfl, this.1, this.2⟩
  obtain ⟨c0, t0, hseq, h60, h38⟩ := hhd
  simp only [step, mkSt]
  rw [if_neg (by simp)]
  simp only [stepTop, hp]
  rw [take_len_append rfl, drop_len_append rfl]
  simp only [topTok]
  rw [if_neg (by rw [hseq]; simp; intro hc; exact absurd hc h60)]
  rw [if_neg (by rw [hseq]; simp; intro hc; exact absurd hc h38)]

theorem step_cdata {defs : List (JStr × JStr)} {s rest0 : JStr} {vl : Option LitKind}
    {vd : Option JStr} {buf : JStr} {out : List Ev} (hs : cdataOkB s = true) :
    step defs (mkSt ((([60, 33, 91, 67, 68, 65, 84, 65, 91] : JStr) ++
        (s ++ [93, 93, 62])) ++ rest0) .top vl vd buf out) =
      mkSt rest0 .top vl vd (buf ++ s) out := by
  have hp := primary_cdata (r := rest0) hs
  have hform : (([60, 33, 91, 67, 68, 65, 84, 65, 91] : JStr) ++ (s ++ [93, 93, 62])) ++ rest0 =
      60 :: 33 :: 91 :: 67 :: 68 :: 65 :: 84 :: 65 :: 91 :: (s ++ 93 :: 93 :: 62 :: rest0) := by
    simp
  simp only [step, mkSt]
  rw [if_neg (by simp)]
  simp only [stepTop, hform, hp]
  have hlen : s.length + 12 =
      (([60, 33, 91, 67, 68, 65, 84, 65, 91] : JStr) ++ (s ++ [93, 93, 62])).length := by
    simp
  rw [← hform, take_len_append hlen, drop_len_append hlen]
  simp only [topTok]
  rw [if_pos (by simp), if_neg (by simp)]
  rw [if_pos (by constructor <;> simp)]
  rw [jsSlice_cdata (p := [60, 33, 91, 67, 68, 65, 84, 65, 91])
    (q := [93, 93, 62]) rfl rfl]

theorem step_cmt {defs : List (JStr × JStr)} {s rest0 : JStr} {vl : Option LitKind}
    {vd : Option JStr} {buf : JStr} {out : List Ev} (hs : cmtOkB s = true) :
    step defs (mkSt ((([60, 33, 45, 45] : JStr) ++ (s ++ [45, 45, 62])) ++ rest0)
      .top vl vd buf out) = mkSt rest0 .top vl vd buf out := by
  have hp := primary_cmt (r := rest0) hs
  have hform : (([60, 33, 45, 45] : JStr) ++ (s ++ [45, 45, 62])) ++ rest0 =
      60 :: 33 :: 45 :: 45 :: (s ++ 45 :: 45 :: 62 :: rest0) := by simp
  simp only [step, mkSt]
  rw [if_neg (by simp)]
  simp only [stepTop, hform, hp]
  have hlen : s.length + 7 = (([60, 33, 45, 45] : JStr) ++ (s ++ [45, 45, 62])).length := by
    simp
  rw [← hform, take_len_append hlen, drop_len_append hlen]
  simp only [topTok]
  rw [if_pos (by simp), if_neg (by simp)]
  rw [if_neg (by simp)]
  rw [if_neg (by simp)]

theorem step_pin {defs : List (JStr × JStr)} {s rest0 : JStr} {vl : Option LitKind}
    {vd : Option JStr} {buf : JStr} {out : List Ev} (hs : piOkB s = true) :
    step defs (mkSt ((([60, 63] : JStr) ++ (s ++ [63, 62])) ++ rest0) .top vl vd buf out) =
      mkSt rest0 .top vl vd buf out := by
  have hp := primary_pin (r := rest0) hs
  have hform : (([60, 63] : JStr) ++ (s ++ [63, 62])) ++ rest0 =
      60 :: 63 :: (s ++ 63 :: 62 :: rest0) := by simp
  simp only [step, mkSt]
  rw [if_neg (by simp)]
  simp only [stepTop, hform, hp]
  have hlen : s.length + 4 = (([60, 63] : JStr) ++ (s ++ [63, 62])).length := by simp
  rw [← hform, take_len_append hlen, drop_len_append hlen]
  simp only [topTok]
  rw [if_pos (by simp), if_neg (by simp)]
  rw [if_neg (by simp)]
  rw [if_neg (by simp)]

theorem jsAt_pred2 {a : JStr} {x y : Nat} : jsAt (a ++ [x, y]) (-2) = some x := by
  simp only [jsAt]
  rw [if_pos (show (-2 : Int) < 0 by omega)]
  have hj : ((a ++ [x, y]).length : Int) + (-2) = (a.length : Int) := by
    push_cast [List.length_append, List.length_cons, List.length_nil]
    omega
  rw [hj]
  rw [if_neg (by omega)]
  have ht : ((a.length : Int)).toNat = a.length := by omega
  rw [ht]
  rw [List.get?_append_right (by omega)]
  simp

theorem jsSlice02 {a : JStr} {x y : Nat} : jsSlice (a ++ [x, y]) 0 (-2) = a := by
  simp only [jsSlice]
  rw [if_neg (show ¬((0 : Int) < 0) by omega), if_pos (show (-2 : Int) < 0 by omega)]
  have h1 : (0 : Int) ⊓ ((a ++ [x, y]).length : Int) = 0 := min_eq_left (by positivity)
  have h2 : ((a ++ [x, y]).length : Int) + (-2) = (a.length : Int) := by
    push_cast [List.length_append, List.length_cons, List.length_nil]
    omega
  rw [h1, h2]
  have h3 : max ((a.length : Int)) 0 = (a.length : Int) := max_eq_left (by positivity)
  rw [h3]
  have h4 : ((0 : Int)).toNat = 0 := rfl
  have h5 : ((a.length : Int)).toNat = a.length := by omega
  rw [h4, h5]
  simp only [List.drop_zero, Nat.sub_zero]
  rw [show a ++ [x, y] = a ++ [x, y] from rfl]
  exact List.take_left _ _

theorem dropLast2 {a : JStr} {x y : Nat} :
    (a ++ [x, y]).drop ((a ++ [x, y]).length - 1) = [y] := by
  have h1 : (a ++ [x, y]).length - 1 = (a ++ [x]).length := by simp
  rw [h1, show a ++ [x, y] = (a ++ [x]) ++ [y] by simp]
  exact drop_len_append rfl

theorem getLast2 {a : JStr} {x y : Nat} : (a ++ [x, y]).getLast? = some y := by
  rw [List.getLast?_append_cons]
  rfl

theorem step_open {defs : List (JStr × JStr)} {nm rest1 : JStr} {vl : Option LitKind}
    {vd : Option JStr} {buf : JStr} {out : List Ev} (h : nameOkB nm = true)
    (hstop : ∀ c, rest1.head? = some c → nameChar c = false) :
    step defs (mkSt (60 :: (nm ++ rest1)) .top vl vd buf out) =
      mkSt rest1 (.alist nm []) vl vd [] (out ++ flushE buf) := by
  have hp := primary_open h hstop
  simp only [step, mkSt]
  rw [if_neg (by simp)]
  simp only [stepTop, hp]
  have htake : (60 :: (nm ++ rest1)).take (nm.length + 1) = 60 :: nm := by
    rw [List.take_succ_cons, take_len_append rfl]
  have hdrop : (60 :: (nm ++ rest1)).drop (nm.length + 1) = rest1 := by
    rw [List.drop_succ_cons, drop_len_append rfl]
  rw [htake, hdrop]
  simp only [topTok]
  rw [if_pos (by simp)]
  have hhd : ∃ c0 t0, nm = c0 :: t0 ∧ c0 ≠ 33 ∧ c0 ≠ 63 ∧ c0 ≠ 47 := by
    simp only [nameOkB, Bool.and_eq_true] at h
    obtain ⟨⟨hne, hall⟩, hhd⟩ := h
    rw [List.all_eq_true] at hall
    match nm, hne with
    | c0 :: t0, _ =>
      simp only [List.head?_cons, Bool.and_eq_true, Bool.not_eq_true',
        beq_eq_false_iff_ne] at hhd
      refine ⟨c0, t0, rfl, hhd.1, hhd.2, ?_⟩
      have := hall c0 (by simp)
      intro hc
      rw [hc] at this
      simp [nameChar] at this
  obtain ⟨c0, t0, hseq, h33, h63, h47⟩ := hhd
  rw [if_neg (by rw [hseq]; simp [h47])]
  rw [if_neg (by rw [hseq]; simp [h33])]
  rw [if_pos (by rw [hseq]; simp [h33, h63])]
  by_cases hb : buf = []
  · simp [flush, flushE, hb]
  · simp [flush, flushE, hb]

theorem step_ctag {defs : List (JStr × JStr)} {nm rest0 : JStr} {vl : Option LitKind}
    {vd : Option JStr} {buf : JStr} {out : List Ev} (h : nameOkB nm = true) :
    step defs (mkSt (60 :: 47 :: (nm ++ 62 :: rest0)) .top vl vd buf out) =
      mkSt rest0 .top vl vd [] (out ++ flushE buf ++ [Ev.evCtag nm]) := by
  have hp := primary_ctag (r := rest0) h
  simp only [step, mkSt]
  rw [if_neg (by simp)]
  simp only [stepTop, hp]
  have htake : (60 :: 47 :: (nm ++ 62 :: rest0)).take (nm.length + 2) = 60 :: 47 :: nm := by
    rw [show nm.length + 2 = (nm.length + 1) + 1 by omega, List.take_succ_cons,
      List.take_succ_cons, take_len_append rfl]
  have hdrop : (60 :: 47 :: (nm ++ 62 :: rest0)).drop (nm.length + 2) = 62 :: rest0 := by
    rw [show nm.length + 2 = (nm.length + 1) + 1 by omega, List.drop_succ_cons,
      List.drop_succ_cons, drop_len_append rfl]
  rw [htake, hdrop]
  simp only [topTok]
  rw [if_pos (by simp), if_pos (by simp)]
  by_cases hb : buf = []
  · simp [flush, flushE, hb, idxOf?_cons_self]
  · simp [flush, flushE, hb, idxOf?_cons_self]

theorem step_gt {defs : List (JStr × JStr)} {rest : JStr} {tag : JStr}
    {accA : List (JStr × JStr)} {vl : Option LitKind} {vd : Option JStr} {buf : JStr}
    {out : List Ev} :
    step defs (mkSt (62 :: rest) (.alist tag accA) vl vd buf out) =
      mkSt rest .top vl vd buf (out ++ [Ev.evOtag tag accA]) := by
  simp only [step, mkSt]
  rw [if_neg (by simp)]
  simp only [stepAlist, attlist_gt]
  simp only [List.take_succ_cons, List.take_zero, List.drop_succ_cons, List.drop_zero]
  simp only [alistTok]
  rw [if_pos (Or.inr trivial)]
  simp

theorem step_void {defs : List (JStr × JStr)} {rest : JStr} {tag : JStr}
    {accA : List (JStr × JStr)} {vl : Option LitKind} {vd : Option JStr} {buf : JStr}
    {out : List Ev} :
    step defs (mkSt (47 :: 62 :: rest) (.alist tag accA) vl vd buf out) =
      mkSt rest .top vl vd buf (out ++ [Ev.evOtag tag accA, Ev.evCtag tag]) := by
  simp only [step, mkSt]
  rw [if_neg (by simp)]
  simp only [stepAlist, attlist_void]
  simp only [List.take_succ_cons, List.take_zero, List.drop_succ_cons, List.drop_zero]
  simp only [alistTok]
  rw [if_pos (Or.inl trivial)]
  simp

theorem step_ws {defs : List (JStr × JStr)} {l : JStr} {tag : JStr}
    {accA : List (JStr × JStr)} {vl : Option LitKind} {vd : Option JStr} {buf : JStr}
    {out : List Ev} (hl : ∀ c, l.head? = some c → wsChar c = false) :
    step defs (mkSt (32 :: l) (.alist tag accA) vl vd buf out) =
      mkSt l (.alist tag accA) vl vd buf out := by
  simp only [step, mkSt]
  rw [if_neg (by simp)]
  simp only [stepAlist, attlist_ws hl]
  simp only [List.take_succ_cons, List.take_zero, List.drop_succ_cons, List.drop_zero]
  simp only [alistTok]
  rw [if_neg (by simp)]
  rw [if_neg (by simp [jsAt])]

theorem step_attr {defs : List (JStr × JStr)} {a rest : JStr} {tag : JStr}
    {accA : List (JStr × JStr)} {vl : Option LitKind} {vd : Option JStr} {buf : JStr}
    {out : List Ev} (h : attrNameOkB a = true) :
    step defs (mkSt (a ++ 61 :: 34 :: rest) (.alist tag accA) vl vd buf out) =
      mkSt rest (.value tag accA a) (some .dq) (some [34]) buf out := by
  have hp := attlist_attr (r := rest) h
  simp only [step, mkSt]
  rw [if_neg (by simp)]
  simp only [stepAlist, hp]
  have htake : (a ++ 61 :: 34 :: rest).take (a.length + 2) = a ++ [61, 34] := by
    rw [show a ++ 61 :: 34 :: rest = (a ++ [61, 34]) ++ rest by simp]
    exact take_len_append (by simp)
  have hdrop : (a ++ 61 :: 34 :: rest).drop (a.length + 2) = rest := by
    rw [show a ++ 61 :: 34 :: rest = (a ++ [61, 34]) ++ rest by simp]
    exact drop_len_append (by simp)
  rw [htake, hdrop]
  simp only [alistTok]
  have hane : a ≠ [] := by
    simp only [attrNameOkB, Bool.and_eq_true] at h
    simpa using h.1
  rw [if_neg ?hterm]
  case hterm =>
    intro hc
    rcases hc with hc | hc
    · have := congrArg List.length hc
      simp at this
      match a, hane, this with
      | [], h2, _ => exact h2 rfl
    · have := congrArg List.length hc
      simp at this
  rw [if_pos jsAt_pred2]
  rw [jsSlice02, dropLast2, getLast2]
  rw [if_pos rfl]

theorem step_vrun {defs : List (JStr × JStr)} {v rest : JStr} {tag a : JStr}
    {accA : List (JStr × JStr)} {buf : JStr} {out : List Ev} (hne : v ≠ [])
    (hall : ∀ x ∈ v, valChar x = true) :
    step defs (mkSt (v ++ 34 :: rest) (.value tag accA a) (some .dq) (some [34]) buf out) =
      mkSt (34 :: rest) (.value tag accA a) (some .dq) (some [34]) (buf ++ v) out := by
  have hp := lit_dq_run (r := rest) hne hall
  simp only [step, mkSt]
  rw [if_neg (by simp)]
  simp only [stepValue, hp]
  have htake : (v ++ 34 :: rest).take v.length = v := take_len_append rfl
  have hdrop : (v ++ 34 :: rest).drop v.length = 34 :: rest := drop_len_append rfl
  rw [htake, hdrop]
  simp only [valueTok]
  rw [if_neg ?hd]
  case hd =>
    intro hc
    simp only [Option.some.injEq] at hc
    match v, hne, hc with
    | [x], _, hc =>
      have h0 := valChar_facts (hall x (by simp))
      have : x = 34 := by
        have := congrArg (fun l => l.get? 0) hc
        simpa using this
      exact h0.1 this
  rw [if_neg ?he]
  case he =>
    match v, hne with
    | v0 :: t, _ =>
      have h0 := valChar_facts (hall v0 (by simp))
      simp only [List.cons_append, List.head?_cons, Option.some.injEq]
      intro hc
      exact h0.2 hc

theorem step_vquote {defs : List (JStr × JStr)} {rest : JStr} {tag a : JStr}
    {accA : List (JStr × JStr)} {buf : JStr} {out : List Ev} :
    step defs (mkSt (34 :: rest) (.value tag accA a) (some .dq) (some [34]) buf out) =
      mkSt rest (.alist tag (mapSet accA a buf)) (some .dq) (some [34]) [] out := by
  simp only [step, mkSt]
  rw [if_neg (by simp)]
  simp only [stepValue, lit_dq_quote]
  simp only [List.take_succ_cons, List.take_zero, List.drop_succ_cons, List.drop_zero]
  simp only [valueTok]
  rw [if_pos trivial]

theorem mapSet_fresh {m : List (JStr × JStr)} {k v : JStr}
    (h : k ∉ m.map Prod.fst) : mapSet m k v = m ++ [(k, v)] := by
  induction m with
  | nil => rfl
  | cons p t ih =>
    simp only [List.map_cons, List.mem_cons] at h
    push_neg at h
    simp only [mapSet]
    rw [if_neg (fun hc => h.1 hc.symm)]
    rw [ih h.2]
    simp

theorem steps_succ_front (defs : List (JStr × JStr)) (k : Nat) (s : St) :
    steps defs (1 + k) s = steps defs k (step defs s) := by
  rw [steps_add]
  rfl

theorem attr_head_notws {a : JStr} (hA : attrNameOkB a = true) {X : JStr} :
    ∀ c, (a ++ X).head? = some c → wsChar c = false := by
  simp only [attrNameOkB, Bool.and_eq_true] at hA
  obtain ⟨hne, hall⟩ := hA
  rw [List.all_eq_true] at hall
  intro c hc
  match a, hne with
  | a0 :: t, _ =>
    simp only [List.cons_append, List.head?_cons, Option.some.injEq] at hc
    rw [← hc]
    exact (attrChar_facts (hall a0 (by simp))).2.1

theorem attrsPhase (defs : List (JStr × JStr)) (tag : JStr) :
    ∀ (attrs accA : List (JStr × JStr)) (tail : JStr) (vl : Option LitKind)
      (vd : Option JStr) (out : List Ev),
      attrs.all (fun p => attrNameOkB p.1 && valOkB p.2) = true →
      (accA.map Prod.fst ++ attrs.map Prod.fst).Nodup →
      ∃ k vl2 vd2,
        steps defs k (mkSt (renderA attrs ++ tail) (.alist tag accA) vl vd [] out) =
          mkSt tail (.alist tag (accA ++ attrs)) vl2 vd2 [] out := by
  intro attrs
  induction attrs with
  | nil =>
    intro accA tail vl vd out _ _
    exact ⟨0, vl, vd, by simp [steps, renderA, mkSt]⟩
  | cons p attrs ih =>
    intro accA tail vl vd out hall hnd
    obtain ⟨a, v⟩ := p
    simp only [List.all_cons, Bool.and_eq_true] at hall
    obtain ⟨⟨hA, hV⟩, hall⟩ := hall
    have hfresh : a ∉ accA.map Prod.fst := by
      simp only [List.map_cons] at hnd
      intro hc
      exact (List.disjoint_of_nodup_append hnd) hc (by simp)
    have hnd2 : ((accA ++ [(a, v)]).map Prod.fst ++ attrs.map Prod.fst).Nodup := by
      simp only [List.map_append, List.map_cons, List.map_nil] at hnd ⊢
      rw [List.append_assoc]
      simpa using hnd
    have h1 : renderA ((a, v) :: attrs) ++ tail =
        32 :: (a ++ 61 :: 34 :: (v ++ 34 :: (renderA attrs ++ tail))) := by
      simp [renderA]
    have hs1 : step defs (mkSt (32 :: (a ++ 61 :: 34 :: (v ++ 34 :: (renderA attrs ++ tail))))
        (.alist tag accA) vl vd [] out) =
        mkSt (a ++ 61 :: 34 :: (v ++ 34 :: (renderA attrs ++ tail)))
          (.alist tag accA) vl vd [] out :=
      step_ws (attr_head_notws hA)
    have hs2 : step defs (mkSt (a ++ 61 :: 34 :: (v ++ 34 :: (renderA attrs ++ tail)))
        (.alist tag accA) vl vd [] out) =
        mkSt (v ++ 34 :: (renderA attrs ++ tail)) (.value tag accA a)
          (some .dq) (some [34]) [] out :=
      step_attr hA
    by_cases hv : v = []
    · subst hv
      have hs3 : step defs (mkSt (34 :: (renderA attrs ++ tail)) (.value tag accA a)
          (some .dq) (some [34]) [] out) =
          mkSt (renderA attrs ++ tail) (.alist tag (mapSet accA a []))
            (some .dq) (some [34]) [] out :=
        step_vquote
      have hset : mapSet accA a [] = accA ++ [(a, [])] := mapSet_fresh hfresh
      obtain ⟨k4, vl4, vd4, hs4⟩ :=
        ih (accA ++ [(a, [])]) tail (some .dq) (some [34]) out hall hnd2
      refine ⟨1 + (1 + (1 + k4)), vl4, vd4, ?_⟩
      rw [h1, steps_succ_front, hs1, steps_succ_front, hs2]
      simp only [List.nil_append]
      rw [steps_succ_front, hs3, hset, hs4]
      simp
    · have hs3 : step defs (mkSt (v ++ 34 :: (renderA attrs ++ tail)) (.value tag accA a)
          (some .dq) (some [34]) [] out) =
          mkSt (34 :: (renderA attrs ++ tail)) (.value tag accA a)
            (some .dq) (some [34]) ([] ++ v) out :=
        step_vrun hv
          (by
            intro x hx
            simp only [valOkB] at hV
            rw [List.all_eq_true] at hV
            exact hV x hx)
      have hs4 : step defs (mkSt (34 :: (renderA attrs ++ tail)) (.value tag accA a)
          (some .dq) (some [34]) ([] ++ v) out) =
          mkSt (renderA attrs ++ tail) (.alist tag (mapSet accA a ([] ++ v)))
            (some .dq) (some [34]) [] out :=
        step_vquote
      have hset : mapSet accA a ([] ++ v) = accA ++ [(a, v)] := by
        simp only [List.nil_append]
        exact mapSet_fresh hfresh
      obtain ⟨k5, vl5, vd5, hs5⟩ :=
        ih (accA ++ [(a, v)]) tail (some .dq) (some [34]) out hall hnd2
      refine ⟨1 + (1 + (1 + (1 + k5))), vl5, vd5, ?_⟩
      rw [h1, steps_succ_front, hs1, steps_succ_front, hs2, steps_succ_front, hs3,
        steps_succ_front, hs4, hset, hs5]
      simp

theorem steps_one (defs : List (JStr × JStr)) (s : St) : steps defs 1 s = step defs s := rfl

theorem renderA_stop {attrs : List (JStr × JStr)} {X : JStr}
    (hX : ∀ c, X.head? = some c → nameChar c = false) :
    ∀ c, (renderA attrs ++ X).head? = some c → nameChar c = false := by
  cases attrs with
  | nil => simpa [renderA] using hX
  | cons p t =>
    obtain ⟨a, v⟩ := p
    intro c hc
    simp only [renderA, List.cons_append, List.head?_cons, Option.some.injEq] at hc
    rw [← hc]
    decide

theorem renderN_head60 {m : XNode} (h : isTxtN m = false) {X : JStr} :
    ∀ c, (renderN m ++ X).head? = some c → c = 60 := by
  cases m with
  | elem nm attrs void kids =>
    intro c hc
    simp only [renderN, List.cons_append, List.head?_cons, Option.some.injEq] at hc
    omega
  | txt s => simp [isTxtN] at h
  | cdata s =>
    intro c hc
    simp only [renderN, List.cons_append, List.append_assoc, List.head?_cons,
      Option.some.injEq] at hc
    omega
  | cmt s =>
    intro c hc
    simp only [renderN, List.cons_append, List.append_assoc, List.head?_cons,
      Option.some.injEq] at hc
    omega
  | pin s =>
    intro c hc
    simp only [renderN, List.cons_append, List.append_assoc, List.head?_cons,
      Option.some.injEq] at hc
    omega

mutual
/-- Running the machine over a rendered well-formed node consumes it, appends
its canonical events, and leaves its pending merged text in the buffer. -/
theorem runN (defs : List (JStr × JStr)) (n : XNode) :
    wfN n = true →
    ∀ (tail acc : JStr) (out : List Ev) (vl : Option LitKind) (vd : Option JStr),
      (isTxtN n = true → ∀ c, tail.head? = some c → c = 60) →
      ∃ k vl2 vd2,
        steps defs k (mkSt (renderN n ++ tail) .top vl vd acc out) =
          mkSt tail .top vl2 vd2 (evN n acc).2 (out ++ (evN n acc).1) := by
  cases n with
  | txt s =>
    intro hwf tail acc out vl vd hlook
    refine ⟨1 + 0, vl, vd, ?_⟩
    simp only [renderN, evN]
    rw [steps_succ_front, step_txt (by simpa [wfN] using hwf) (hlook rfl)]
    simp [steps]
  | cdata s =>
    intro hwf tail acc out vl vd _
    refine ⟨1 + 0, vl, vd, ?_⟩
    have hform : renderN (.cdata s) ++ tail =
        (([60, 33, 91, 67, 68, 65, 84, 65, 91] : JStr) ++ (s ++ [93, 93, 62])) ++ tail := by
      simp [renderN]
    rw [hform, steps_succ_front, step_cdata (by simpa [wfN] using hwf)]
    simp [steps, evN]
  | cmt s =>
    intro hwf tail acc out vl vd _
    refine ⟨1 + 0, vl, vd, ?_⟩
    have hform : renderN (.cmt s) ++ tail =
        (([60, 33, 45, 45] : JStr) ++ (s ++ [45, 45, 62])) ++ tail := by
      simp [renderN]
    rw [hform, steps_succ_front, step_cmt (by simpa [wfN] using hwf)]
    simp [steps, evN]
  | pin s =>
    intro hwf tail acc out vl vd _
    refine ⟨1 + 0, vl, vd, ?_⟩
    have hform : renderN (.pin s) ++ tail =
        (([60, 63] : JStr) ++ (s ++ [63, 62])) ++ tail := by
      simp [renderN]
    rw [hform, steps_succ_front, step_pin (by simpa [wfN] using hwf)]
    simp [steps, evN]
  | elem nm attrs void kids =>
    intro hwf tail acc out vl vd _
    simp only [wfN, Bool.and_eq_true] at hwf
    obtain ⟨⟨⟨⟨hnm, hatts⟩, hnd⟩, hvoid⟩, hkids⟩ := hwf
    rw [decide_eq_true_eq] at hnd
    cases void with
    | true =>
      cases kids with
      | fcons m f => simp at hvoid
      | fnil =>
        have hstop : ∀ c, (renderA attrs ++ (47 :: 62 :: tail)).head? = some c →
            nameChar c = false := by
          refine renderA_stop ?_
          intro c hc
          simp only [List.head?_cons, Option.some.injEq] at hc
          rw [← hc]
          decide
        obtain ⟨k2, vl2, vd2, h2⟩ := attrsPhase defs nm attrs [] (47 :: 62 :: tail) vl vd
          (out ++ flushE acc) hatts (by simpa using hnd)
        refine ⟨1 + (k2 + 1), vl2, vd2, ?_⟩
        have hform : renderN (.elem nm attrs true .fnil) ++ tail =
            60 :: (nm ++ (renderA attrs ++ (47 :: 62 :: tail))) := by
          simp [renderN]
        rw [hform, steps_succ_front, step_open hnm hstop]
        rw [steps_add, h2]
        simp only [List.nil_append]
        rw [steps_one, step_void]
        simp [evN, List.append_assoc]
    | false =>
      have hstop : ∀ c, (renderA attrs ++
          (62 :: (renderF kids ++ (60 :: 47 :: (nm ++ 62 :: tail))))).head? = some c →
          nameChar c = false := by
        refine renderA_stop ?_
        intro c hc
        simp only [List.head?_cons, Option.some.injEq] at hc
        rw [← hc]
        decide
      obtain ⟨k2, vl2, vd2, h2⟩ := attrsPhase defs nm attrs []
        (62 :: (renderF kids ++ (60 :: 47 :: (nm ++ 62 :: tail)))) vl vd
        (out ++ flushE acc) hatts (by simpa using hnd)
      obtain ⟨k3, vl3, vd3, h3⟩ := runF defs kids hkids (60 :: 47 :: (nm ++ 62 :: tail)) []
        ((out ++ flushE acc) ++ [Ev.evOtag nm attrs]) vl2 vd2
        (by
          intro c hc
          simp only [List.head?_cons, Option.some.injEq] at hc
          omega)
      refine ⟨1 + (k2 + (1 + (k3 + 1))), vl3, vd3, ?_⟩
      have hform : renderN (.elem nm attrs false kids) ++ tail =
          60 :: (nm ++ (renderA attrs ++
            (62 :: (renderF kids ++ (60 :: 47 :: (nm ++ 62 :: tail)))))) := by
        simp [renderN]
      rw [hform, steps_succ_front, step_open hnm hstop]
      rw [steps_add, h2]
      simp only [List.nil_append]
      rw [steps_succ_front, step_gt]
      rw [steps_add, h3]
      rw [steps_one, step_ctag hnm]
      simp [evN, List.append_assoc]
/-- Running the machine over a rendered well-formed forest consumes it, appends
its canonical events, and leaves its pending merged text in the buffer. -/
theorem runF (defs : List (JStr × JStr)) (f : XForest) :
    wfF f = true →
    ∀ (tail acc : JStr) (out : List Ev) (vl : Option LitKind) (vd : Option JStr),
      (∀ c, tail.head? = some c → c = 60) →
      ∃ k vl2 vd2,
        steps defs k (mkSt (renderF f ++ tail) .top vl vd acc out) =
          mkSt tail .top vl2 vd2 (evF f acc).2 (out ++ (evF f acc).1) := by
  cases f with
  | fnil =>
    intro _ tail acc out vl vd _
    exact ⟨0, vl, vd, by simp [steps, renderF, evF, mkSt]⟩
  | fcons n f =>
    intro hwf tail acc out vl vd htail
    simp only [wfF, Bool.and_eq_true] at hwf
    obtain ⟨⟨hn, hf⟩, hadj⟩ := hwf
    have hcond : isTxtN n = true → ∀ c, (renderF f ++ tail).head? = some c → c = 60 := by
      intro htxt
      cases f with
      | fnil =>
        intro c hc
        exact htail c (by simpa [renderF] using hc)
      | fcons m f2 =>
        have hm : isTxtN m = false := by
          simp only [Bool.not_eq_true'] at hadj
          rw [htxt] at hadj
          simpa [headTxt] using hadj
        have := renderN_head60 hm (X := renderF f2 ++ tail)
        intro c hc
        refine this c ?_
        simpa [renderF, List.append_assoc] using hc
    obtain ⟨k1, vl1, vd1, h1⟩ := runN defs n hn (renderF f ++ tail) acc out vl vd hcond
    obtain ⟨k2, vl2, vd2, h2⟩ := runF defs f hf tail (evN n acc).2
      (out ++ (evN n acc).1) vl1 vd1 htail
    refine ⟨k1 + k2, vl2, vd2, ?_⟩
    have hform : renderF (.fcons n f) ++ tail = renderN n ++ (renderF f ++ tail) := by
      simp [renderF]
    rw [hform, steps_add, h1, h2]
    simp [evF, List.append_assoc]
end

theorem declLen_not33 {c2 : Nat} {t : JStr} (h33 : c2 ≠ 33) :
    declLen (60 :: c2 :: t) = none := by
  rw [declLen.eq_def]
  split
  · rename_i heq
    simp only [List.cons.injEq] at heq
    exact absurd heq.2.1 h33
  · rfl

theorem prologSplit_tag {c2 : Nat} {t : JStr} (h33 : c2 ≠ 33) (h63 : c2 ≠ 63) :
    prologSplit (60 :: c2 :: t) = ([], 60 :: c2 :: t) := by
  have htok : prologTokLen (60 :: c2 :: t) = none := by
    have hd := declLen_not33 (t := t) h33
    have hc : commentLen (60 :: c2 :: t) = none := by
      simp only [commentLen]
      rw [if_neg]
      intro hcon
      simp only [List.take_succ_cons, List.take, List.cons.injEq] at hcon
      exact h33 hcon.2.1
    have hp : piLen (60 :: c2 :: t) = none := by
      simp only [piLen]
      rw [if_neg]
      intro hcon
      simp only [List.take_succ_cons, List.take, List.cons.injEq] at hcon
      exact h63 hcon.2.1
    have hf : fillerLen (60 :: c2 :: t) = none := by
      simp only [fillerLen,
        runLen_cons_neg (p := fun c => !(c == 60)) (c := 60) (by decide)]
      rfl
    simp only [prologTokLen, hd, hc, hp, hf, orE]
  simp only [prologSplit, prologGo, htok]
  simp

theorem step_end {defs : List (JStr × JStr)} {vl : Option LitKind} {vd : Option JStr}
    {buf : JStr} {out : List Ev} :
    step defs (mkSt [] .top vl vd buf out) =
      ⟨[], .top, vl, vd, [], [], buf, out, false⟩ := rfl

/-- A rendered well-formed root element is read completely: no prolog is
consumed, the `head` hook fires with the empty string, the canonical events
follow, and the reader then halts with nothing buffered. -/
theorem runRoot (defs : List (JStr × JStr)) (nm : JStr) (attrs : List (JStr × JStr))
    (void : Bool) (kids : XForest) (h : wfN (.elem nm attrs void kids) = true) :
    ∃ k vl2 vd2,
      steps defs k (init (renderN (.elem nm attrs void kids))) =
        ⟨[], .top, vl2, vd2, [], [], [],
          Ev.evHead [] :: (evN (.elem nm attrs void kids) []).1, false⟩ := by
  have hnm : nameOkB nm = true := by
    simp only [wfN, Bool.and_eq_true] at h
    exact h.1.1.1.1
  obtain ⟨c0, nmt, hny, h33, h63⟩ : ∃ c0 t, nm = c0 :: t ∧ c0 ≠ 33 ∧ c0 ≠ 63 := by
    simp only [nameOkB, Bool.and_eq_true] at hnm
    obtain ⟨⟨hne, _⟩, hhd⟩ := hnm
    match nm, hne with
    | c0 :: t, _ =>
      simp only [List.head?_cons, Bool.and_eq_true, Bool.not_eq_true',
        beq_eq_false_iff_ne] at hhd
      exact ⟨c0, t, rfl, hhd.1, hhd.2⟩
  have hsplit : prologSplit (renderN (.elem nm attrs void kids)) =
      ([], renderN (.elem nm attrs void kids)) := by
    obtain ⟨t, ht⟩ : ∃ t, renderN (.elem nm attrs void kids) = 60 :: c0 :: t :=
      ⟨_, by
        simp only [renderN, hny, List.cons_append, List.append_assoc]
        rfl⟩
    rw [ht]
    exact prologSplit_tag h33 h63
  have hinit : init (renderN (.elem nm attrs void kids)) =
      mkSt (renderN (.elem nm attrs void kids)) .top none none [] [Ev.evHead []] := by
    simp [init, hsplit, mkSt]
  obtain ⟨k, vl2, vd2, hrun⟩ := runN defs (.elem nm attrs void kids) h [] [] [Ev.evHead []]
    none none (by intro hc; simp [isTxtN] at hc)
  rw [List.append_nil] at hrun
  refine ⟨k + 1, vl2, vd2, ?_⟩
  rw [hinit, steps_add, hrun]
  have hsnd : (evN (.elem nm attrs void kids) []).2 = [] := by simp [evN]
  rw [hsnd, steps_one, step_end]
  simp

/-- Whether an event is a tag (open or close) delivery. -/
def isTag (e : Ev) : Bool := !isText e && !isHead e

/-- The subsequence of tag events of an output. -/
def tagEvs (l : List Ev) : List Ev := l.filter isTag

mutual
/-- The canonical tag-event sequence of a node: an open, the children's tag
events (none for a void tag), then the matching close. -/
def tagsN : XNode → List Ev
  | .elem nm attrs void kids =>
    Ev.evOtag nm attrs :: ((if void then [] else tagsF kids) ++ [Ev.evCtag nm])
  | _ => []
/-- The canonical tag-event sequence of a forest. -/
def tagsF : XForest → List Ev
  | .fnil => []
  | .fcons n f => tagsN n ++ tagsF f
end

/-- Check well-nestedness of a tag-event sequence against a stack of open
names: every close must name the most recently opened unclosed tag. -/
def balRun : List JStr → List Ev → Option (List JStr)
  | stk, [] => some stk
  | stk, Ev.evOtag nm _ :: t => balRun (nm :: stk) t
  | stk, Ev.evCtag nm :: t =>
    match stk with
    | nm2 :: stk2 => if nm = nm2 then balRun stk2 t else none
    | [] => none
  | stk, _ :: t => balRun stk t

theorem tagEvs_flushE (a : JStr) : tagEvs (flushE a) = [] := by
  by_cases h : a = [] <;> simp [flushE, h, tagEvs, isTag, isText, isHead]

theorem tagEvs_append (a b : List Ev) : tagEvs (a ++ b) = tagEvs a ++ tagEvs b :=
  List.filter_append a b

theorem tagEvs_nil : tagEvs [] = [] := rfl

theorem tagEvs_otag (t : JStr) (a : List (JStr × JStr)) (l : List Ev) :
    tagEvs (Ev.evOtag t a :: l) = Ev.evOtag t a :: tagEvs l := by
  simp [tagEvs, isTag, isText, isHead]

theorem tagEvs_ctag (t : JStr) (l : List Ev) :
    tagEvs (Ev.evCtag t :: l) = Ev.evCtag t :: tagEvs l := by
  simp [tagEvs, isTag, isText, isHead]

theorem tagEvs_head (p : JStr) (l : List Ev) :
    tagEvs (Ev.evHead p :: l) = tagEvs l := by
  simp [tagEvs, isTag, isText, isHead]

theorem balRun_nil (stk : List JStr) : balRun stk [] = some stk := rfl

theorem balRun_otag (stk : List JStr) (nm : JStr) (a : List (JStr × JStr)) (t : List Ev) :
    balRun stk (Ev.evOtag nm a :: t) = balRun (nm :: stk) t := rfl

theorem balRun_ctag (stk : List JStr) (nm nm2 : JStr) (t : List Ev) :
    balRun (nm2 :: stk) (Ev.evCtag nm :: t) = if nm = nm2 then balRun stk t else none := rfl

mutual
/-- The tag events of a node's canonical output are its canonical tag events;
the pending-text accumulator contributes none. -/
theorem tagEvs_evN (n : XNode) : ∀ a, tagEvs (evN n a).1 = tagsN n := by
  cases n with
  | elem nm attrs void kids =>
    intro a
    have hk := tagEvs_evF kids []
    cases void with
    | true =>
      simp [evN, tagsN, tagEvs_append, tagEvs_flushE, tagEvs_otag, tagEvs_ctag, tagEvs_nil]
    | false =>
      simp [evN, tagsN, tagEvs_append, tagEvs_flushE, tagEvs_otag, tagEvs_ctag,
        tagEvs_nil, hk]
  | txt s => intro a; simp [evN, tagsN, tagEvs]
  | cdata s => intro a; simp [evN, tagsN, tagEvs]
  | cmt s => intro a; simp [evN, tagsN, tagEvs]
  | pin s => intro a; simp [evN, tagsN, tagEvs]
/-- The tag events of a forest's canonical output are its canonical tag events. -/
theorem tagEvs_evF (f : XForest) : ∀ a, tagEvs (evF f a).1 = tagsF f := by
  cases f with
  | fnil => intro a; simp [evF, tagsF, tagEvs]
  | fcons n f =>
    intro a
    have h1 := tagEvs_evN n a
    have h2 := tagEvs_evF f (evN n a).2
    simp [evF, tagsF, tagEvs_append, h1, h2]
end

mutual
/-- A node's canonical tag events reduce the balance checker like a no-op. -/
theorem balN (n : XNode) : ∀ stk r, balRun stk (tagsN n ++ r) = balRun stk r := by
  cases n with
  | elem nm attrs void kids =>
    intro stk r
    cases void with
    | true =>
      simp [tagsN, balRun_otag, balRun_ctag]
    | false =>
      have hk := balF kids (nm :: stk) (Ev.evCtag nm :: r)
      simp only [tagsN, Bool.false_eq_true, if_false, List.cons_append,
        List.append_assoc, List.singleton_append, List.nil_append, balRun_otag]
      rw [hk, balRun_ctag, if_pos rfl]
  | txt s => intro stk r; simp [tagsN]
  | cdata s => intro stk r; simp [tagsN]
  | cmt s => intro stk r; simp [tagsN]
  | pin s => intro stk r; simp [tagsN]
/-- A forest's canonical tag events reduce the balance checker like a no-op. -/
theorem balF (f : XForest) : ∀ stk r, balRun stk (tagsF f ++ r) = balRun stk r := by
  cases f with
  | fnil => intro stk r; simp [tagsF]
  | fcons n f =>
    intro stk r
    have h1 := balN n stk (tagsF f ++ r)
    have h2 := balF f stk r
    simp only [tagsF, List.append_assoc]
    rw [h1, h2]
end

theorem primary_ctag_gen {nm rest1 : JStr} (hne : nm ≠ [])
    (hall : ∀ c ∈ nm, nameChar c = true)
    (hstop : ∀ c, rest1.head? = some c → nameChar c = false) :
    primaryLen (60 :: 47 :: (nm ++ rest1)) = some (nm.length + 2) := by
  simp only [primaryLen]
  rw [if_neg (by simp)]
  rw [if_neg (by simp)]
  rw [if_pos (by simp)]
  have hcd : cdataLen (60 :: 47 :: (nm ++ rest1)) = none := by
    simp only [cdataLen]
    rw [if_neg]
    intro hc
    simp only [List.take_succ_cons, List.cons.injEq] at hc
    exact absurd hc.2.1 (by decide)
  have hcm : commentLen (60 :: 47 :: (nm ++ rest1)) = none := by
    simp only [commentLen]
    rw [if_neg]
    intro hc
    simp only [List.take_succ_cons, List.cons.injEq] at hc
    exact absurd hc.2.1 (by decide)
  have hpi : piLen (60 :: 47 :: (nm ++ rest1)) = none := by
    simp only [piLen]
    rw [if_neg]
    intro hc
    simp only [List.take_succ_cons, List.cons.injEq] at hc
    exact absurd hc.2.1 (by decide)
  have ht : tagHeadLen (60 :: 47 :: (nm ++ rest1)) = some (nm.length + 2) := by
    simp only [tagHeadLen]
    rw [if_pos (by simp)]
    have hr : runLen nameChar ((60 :: 47 :: (nm ++ rest1)).drop 2) = nm.length := by
      simp only [List.drop_succ_cons, List.drop_zero]
      exact runLen_stop hall hstop
    rw [hr, if_pos (by
      have := List.length_pos.mpr hne
      omega)]
  simp only [hcd, hcm, hpi, ht, orE]

/-- One top-level step on an end-tag head `</name`: the buffered text is
flushed first; with no `>` ahead the read deactivates, otherwise the close
hook fires with the captured name and the cursor lands just past that `>`,
whatever stands in between. -/
theorem step_ctag_gen {defs : List (JStr × JStr)} {nm rest1 : JStr} {vl : Option LitKind}
    {vd : Option JStr} {stk : List Frame} {names : List JStr} {buf : JStr} {out : List Ev}
    (hne : nm ≠ []) (hall : ∀ c ∈ nm, nameChar c = true)
    (hstop : ∀ c, rest1.head? = some c → nameChar c = false) :
    step defs ⟨60 :: 47 :: (nm ++ rest1), .top, vl, vd, stk, names, buf, out, true⟩ =
      match idxOf? 62 rest1 with
      | none => ⟨rest1, .top, vl, vd, stk, names, [], out ++ flushE buf, false⟩
      | some i => ⟨rest1.drop (i + 1), .top, vl, vd, stk, names, [],
          out ++ flushE buf ++ [Ev.evCtag nm], true⟩ := by
  simp only [step]
  rw [if_neg (by simp)]
  simp only [stepTop, primary_ctag_gen hne hall hstop]
  have htake : (60 :: 47 :: (nm ++ rest1)).take (nm.length + 2) = 60 :: 47 :: nm := by
    rw [show nm.length + 2 = (nm.length + 1) + 1 by omega, List.take_succ_cons,
      List.take_succ_cons, take_len_append rfl]
  have hdrop : (60 :: 47 :: (nm ++ rest1)).drop (nm.length + 2) = rest1 := by
    rw [show nm.length + 2 = (nm.length + 1) + 1 by omega, List.drop_succ_cons,
      List.drop_succ_cons, drop_len_append rfl]
  rw [htake, hdrop]
  simp only [topTok]
  rw [if_pos (by simp), if_pos (by simp)]
  by_cases hb : buf = []
  · cases hidx : idxOf? 62 rest1 with
    | none => simp [flush, flushE, hb, hidx]
    | some i => simp [flush, flushE, hb, hidx]
  · cases hidx : idxOf? 62 rest1 with
    | none => simp [flush, flushE, hb, hidx]
    | some i => simp [flush, flushE, hb, hidx]

theorem textOk_init (src : JStr) : TextOk (init src) := by
  refine ⟨?_, ?_, ?_⟩
  · simp [init]
  · intro b hb
    simp [init] at hb
  · intro _ _ e he
    simp only [init, List.getLast?_singleton, Option.some.injEq] at he
    rw [← he]
    rfl

/-! ## The spec's prolog contract

The spec describes the prolog as the longest prefix of the document matching
`(ignorable-content)*`, where ignorable-content is a doctype-like bracketed
declaration (balanced internal `<...>` and quoted sections), a comment, a
processing instruction, or a run of non-`<` characters.  The following
definitions follow that wording, to be compared with the committed scan
`prologSplit` the code performs. -/

/-- The spec's comment token: `<!--` body `-->`, the body free of `-->`. -/
def specComment (s : JStr) : Bool :=
  s.take 4 == [60, 33, 45, 45] &&
    (match subIdx? [45, 45, 62] (s.drop 4) with
     | some i => s.length == i + 7
     | none => false)

/-- The spec's processing-instruction token: `<?` body `?>`, the body free
of `?>`. -/
def specPI (s : JStr) : Bool :=
  s.take 2 == [60, 63] &&
    (match subIdx? [63, 62] (s.drop 2) with
     | some i => s.length == i + 4
     | none => false)

/-- The spec's filler token: a non-empty run of non-`<` characters. -/
def specFiller (s : JStr) : Bool := !s.isEmpty && s.all (fun c => !(c == 60))

/-- Scanner for the body of the spec's doctype-like declaration: quoted
sections are skipped whole, `<`/`>` must balance, and the declaration ends at
the closing `>` of the outer level, which must end the token. -/
def specDeclGo : Nat → Nat → JStr → Bool
  | 0, _, _ => false
  | _ + 1, _, [] => false
  | fuel + 1, d, c :: t =>
    if c = 62 then (if d = 0 then t.isEmpty else specDeclGo fuel (d - 1) t)
    else if c = 60 then specDeclGo fuel (d + 1) t
    else if c = 34 then
      match idxOf? 34 t with
      | some i => specDeclGo fuel d (t.drop (i + 1))
      | none => false
    else if c = 39 then
      match idxOf? 39 t with
      | some i => specDeclGo fuel d (t.drop (i + 1))
      | none => false
    else specDeclGo fuel d t

/-- The spec's doctype-like bracketed declaration `<!...>`. -/
def specDecl (s : JStr) : Bool :=
  match s with
  | 60 :: 33 :: t => specDeclGo (t.length + 1) 0 t
  | _ => false

/-- The spec's ignorable-content alternation. -/
def specIgnorable (s : JStr) : Bool :=
  specDecl s || specComment s || specPI s || specFiller s

/-- `s` matches the spec's `(ignorable-content)*`. -/
inductive SpecStar : JStr → Prop where
  | nil : SpecStar []
  | tok (t r : JStr) : specIgnorable t = true → SpecStar r → SpecStar (t ++ r)

/-! ## The claims -/

set_option maxRecDepth 100000 in
/-- C1: for the entity table b ↦ `"&c;"` (quotes included), c ↦ `(<d e="f"/>)`
and the document `<a a="[&b;]">[&b;]</a>`, the reader fires exactly
head(""), otag("a", a ↦ `["(<d e="f"/>)"]`), text(`["(`), otag("d", e ↦ f),
ctag("d"), text(`)"]`), ctag("a") and halts: an entity referenced at top
level is reparsed as markup, while the same entity inside an attribute value
contributes only literal text, with its nested references still expanded. -/
theorem claim1_reparse_trace :
    (steps [([98], J "\"&c;\""), ([99], J "(<d e=\"f\"/>)")] 60
        (init (J "<a a=\"[&b;]\">[&b;]</a>"))).out =
      [Ev.evHead [], Ev.evOtag [97] [([97], J "[\"(<d e=\"f\"/>)\"]")],
       Ev.evText (J "[\"("), Ev.evOtag [100] [([101], [102])], Ev.evCtag [100],
       Ev.evText (J ")\"]"), Ev.evCtag [97]] ∧
    (steps [([98], J "\"&c;\""), ([99], J "(<d e=\"f\"/>)")] 60
        (init (J "<a a=\"[&b;]\">[&b;]</a>"))).active = false := ⟨rfl, rfl⟩

set_option maxRecDepth 100000 in
/-- C2 counterexample: `&#xD800;` parses to 0xD800 = 55296, a surrogate code
point and therefore not a Unicode scalar value, yet the read does not
deactivate: the lone surrogate is appended to the text and further hooks
still fire (the close hook follows the text delivery). -/
theorem claim2_counterexample :
    (steps [] 20 (init (J "<a>&#xD800;</a>"))).out =
      [Ev.evHead [], Ev.evOtag [97] [], Ev.evText [55296], Ev.evCtag [97]] ∧
    (steps [] 20 (init (J "<a>&#xD800;</a>"))).active = false ∧
    parseIntHex (J "D800") = some 55296 := ⟨rfl, rfl, rfl⟩

/-- C2 (amended): for every numeric character reference, if the parsed value
is a valid argument to `String.fromCodePoint` — any code point below
0x110000, surrogates included — its UTF-16 encoding is appended to the text
accumulator and reading continues; otherwise (out of range, unparsable) the
read deactivates, and a deactivated read never changes state again.  The
parse is the JavaScript one: StrWhiteSpace (Unicode space separators
included) is trimmed before the digits.  `&#38;` and `&#x26;` both yield the
single unit `&`, `&#x110000;` deactivates, and a reference whose body starts
with U+2000 before the digits still parses and appends. -/
theorem claim2_numeric_refs :
    (∀ (defs : List (JStr × JStr)) (ref : JStr) (s : St) (c : Int),
      ref.head? = some 35 →
      (if ref.get? 1 = some 120 then parseIntHex (ref.drop 2)
       else parseIntDec (ref.drop 1)) = some c →
      (0 ≤ c ∧ c < 1114112 →
        expand defs ref s = { s with buf := s.buf ++ fromCodePoint c.toNat }) ∧
      (¬(0 ≤ c ∧ c < 1114112) → expand defs ref s = { s with active := false })) ∧
    (∀ (defs : List (JStr × JStr)) (ref : JStr) (s : St),
      ref.head? = some 35 →
      (if ref.get? 1 = some 120 then parseIntHex (ref.drop 2)
       else parseIntDec (ref.drop 1)) = none →
      expand defs ref s = { s with active := false }) ∧
    (∀ (defs : List (JStr × JStr)) (s : St) (n : Nat),
      s.active = false → steps defs n s = s) ∧
    (∀ s : St, expand [] (J "#38") s = { s with buf := s.buf ++ [38] }) ∧
    (∀ s : St, expand [] (J "#x26") s = { s with buf := s.buf ++ [38] }) ∧
    (∀ s : St, expand [] (J "#xD800") s = { s with buf := s.buf ++ [55296] }) ∧
    (∀ s : St, expand [] (J "#x110000") s = { s with active := false }) ∧
    (∀ s : St, expand [] (J "#\u200056") s = { s with buf := s.buf ++ [56] }) := by
  refine ⟨?_, ?_, ?_, fun s => rfl, fun s => rfl, fun s => rfl, fun s => rfl,
    fun s => rfl⟩
  · intro defs ref s c h35 hparse
    constructor
    · intro hrange
      simp only [expand, hparse]
      rw [if_pos h35, if_pos hrange]
    · intro hrange
      simp only [expand, hparse]
      rw [if_pos h35, if_neg hrange]
  · intro defs ref s h35 hparse
    simp only [expand, hparse]
    rw [if_pos h35]
  · intro defs s n h
    exact steps_frozen h n

/-- C2 witness: concrete applications of the amended numeric-reference
characterisation. -/
theorem claim2_witness :
    expand [] (J "#65") ⟨[], Mode.top, none, none, [], [], [], [], true⟩ =
      ⟨[], Mode.top, none, none, [], [], [65], [], true⟩ ∧
    expand [] (J "#z") ⟨[], Mode.top, none, none, [], [], [], [], true⟩ =
      ⟨[], Mode.top, none, none, [], [], [], [], false⟩ ∧
    steps [] 5 ⟨[], Mode.top, none, none, [], [], [], [], false⟩ =
      ⟨[], Mode.top, none, none, [], [], [], [], false⟩ :=
  ⟨((claim2_numeric_refs.1 [] (J "#65")
      ⟨[], Mode.top, none, none, [], [], [], [], true⟩ 65 rfl rfl).1 (by decide)).trans rfl,
   (claim2_numeric_refs.2.1 [] (J "#z")
      ⟨[], Mode.top, none, none, [], [], [], [], true⟩ rfl rfl).trans rfl,
   claim2_numeric_refs.2.2.1 []
      ⟨[], Mode.top, none, none, [], [], [], [], false⟩ 5 rfl⟩

/-- C3: the reader halts on every input string and every entity table, and a
named (non-numeric, non-predefined) reference whose name is already on the
recursion-guard stack leaves the state untouched: no frame is pushed, no text
is appended, and processing simply continues after the reference. -/
theorem claim3_termination_guard :
    (∀ (defs : List (JStr × JStr)) (src : JStr),
      ∃ n, (steps defs n (init src)).active = false) ∧
    (∀ (defs : List (JStr × JStr)) (ref : JStr) (s : St),
      ref.head? ≠ some 35 → predef ref = none → ref ∈ s.names →
      expand defs ref s = s) := by
  refine ⟨fast_xml_halts, ?_⟩
  intro defs ref s h35 hpre hmem
  simp only [expand, hpre]
  rw [if_neg h35, if_neg (fun hc => hc.1 hmem)]

/-- C3 witness: the self-referential table b ↦ `&b;` halts, and expanding the
reference `b` while `b` is on the guard stack is the identity. -/
theorem claim3_witness :
    (∃ n, (steps [([98], J "&b;")] n (init (J "<a>&b;</a>"))).active = false) ∧
    expand [([98], J "&b;")] [98]
        ⟨J "&b;", Mode.top, none, none, [], [[98]], [], [], true⟩ =
      ⟨J "&b;", Mode.top, none, none, [], [[98]], [], [], true⟩ :=
  ⟨claim3_termination_guard.1 [([98], J "&b;")] (J "<a>&b;</a>"),
   claim3_termination_guard.2 [([98], J "&b;")] [98]
      ⟨J "&b;", Mode.top, none, none, [], [[98]], [], [], true⟩
      (by decide) (by decide) (by decide)⟩

/-- C7: on an end-tag head `</name` at top level the non-empty text
accumulator is flushed through the text hook first; then, when no `>` occurs
in the remaining input the read deactivates — and deactivates only in that
case — otherwise the close hook fires with the captured name and the cursor
advances to just past that `>`, any characters between the name and the `>`
being skipped without validation. -/
theorem claim7_end_tag (defs : List (JStr × JStr)) (nm rest1 : JStr)
    (vl : Option LitKind) (vd : Option JStr) (stk : List Frame) (names : List JStr)
    (buf : JStr) (out : List Ev) (hne : nm ≠ [])
    (hall : ∀ c ∈ nm, nameChar c = true)
    (hstop : ∀ c, rest1.head? = some c → nameChar c = false) :
    (idxOf? 62 rest1 = none →
      step defs ⟨60 :: 47 :: (nm ++ rest1), .top, vl, vd, stk, names, buf, out, true⟩ =
        ⟨rest1, .top, vl, vd, stk, names, [], out ++ flushE buf, false⟩) ∧
    (∀ i, idxOf? 62 rest1 = some i →
      step defs ⟨60 :: 47 :: (nm ++ rest1), .top, vl, vd, stk, names, buf, out, true⟩ =
        ⟨rest1.drop (i + 1), .top, vl, vd, stk, names, [],
          out ++ flushE buf ++ [Ev.evCtag nm], true⟩) := by
  constructor
  · intro h
    rw [step_ctag_gen hne hall hstop, h]
  · intro i h
    rw [step_ctag_gen hne hall hstop, h]

/-- C7 witness: `</a >` fires text then ctag and lands past the `>`;
`</a ` with no `>` ahead flushes the text and deactivates. -/
theorem claim7_witness :
    step [] ⟨60 :: 47 :: ([97] ++ [32, 62]), Mode.top, none, none, [], [], [98], [], true⟩ =
      ⟨[], Mode.top, none, none, [], [], [], [Ev.evText [98], Ev.evCtag [97]], true⟩ ∧
    step [] ⟨60 :: 47 :: ([97] ++ [32]), Mode.top, none, none, [], [], [98], [], true⟩ =
      ⟨[32], Mode.top, none, none, [], [], [], [Ev.evText [98]], false⟩ :=
  ⟨((claim7_end_tag [] [97] [32, 62] none none [] [] [98] [] (by decide) (by decide)
      (by
        intro c hc
        simp only [List.head?_cons, Option.some.injEq] at hc
        rw [← hc]
        decide)).2 1 rfl).trans rfl,
   ((claim7_end_tag [] [97] [32] none none [] [] [98] [] (by decide) (by decide)
      (by
        intro c hc
        simp only [List.head?_cons, Option.some.injEq] at hc
        rw [← hc]
        decide)).1 rfl).trans rfl⟩

/-- C4: every entity-free well-formed document (a rendered well-formed root
element) is read to completion with a tag-event sequence equal to the
document's canonical tag structure and accepted by the balance checker:
every close names the most recently opened unclosed tag, the names compared
as raw code-unit lists (case-sensitive, no normalisation). -/
theorem claim4_well_nested (defs : List (JStr × JStr)) (nm : JStr)
    (attrs : List (JStr × JStr)) (void : Bool) (kids : XForest)
    (h : wfN (.elem nm attrs void kids) = true) :
    ∃ k, (steps defs k (init (renderN (.elem nm attrs void kids)))).active = false ∧
      tagEvs (steps defs k (init (renderN (.elem nm attrs void kids)))).out =
        tagsN (.elem nm attrs void kids) ∧
      balRun [] (tagEvs (steps defs k (init (renderN (.elem nm attrs void kids)))).out) =
        some [] := by
  obtain ⟨k, vl2, vd2, hk⟩ := runRoot defs nm attrs void kids h
  refine ⟨k, ?_, ?_, ?_⟩
  · rw [hk]
  · rw [hk]
    show tagEvs (Ev.evHead [] :: (evN (.elem nm attrs void kids) []).1) = _
    rw [tagEvs_head, tagEvs_evN]
  · rw [hk]
    show balRun [] (tagEvs (Ev.evHead [] :: (evN (.elem nm attrs void kids) []).1)) = _
    rw [tagEvs_head, tagEvs_evN]
    have hb := balN (.elem nm attrs void kids) [] []
    rw [List.append_nil] at hb
    rw [hb]
    exact balRun_nil []

/-- C4 witness: the document `<a>b</a>` at a concrete instantiation. -/
theorem claim4_witness :
    ∃ k, (steps [] k (init (renderN (XNode.elem [97] [] false
          (XForest.fcons (XNode.txt [98]) XForest.fnil))))).active = false ∧
      tagEvs (steps [] k (init (renderN (XNode.elem [97] [] false
          (XForest.fcons (XNode.txt [98]) XForest.fnil))))).out =
        tagsN (XNode.elem [97] [] false (XForest.fcons (XNode.txt [98]) XForest.fnil)) ∧
      balRun [] (tagEvs (steps [] k (init (renderN (XNode.elem [97] [] false
          (XForest.fcons (XNode.txt [98]) XForest.fnil))))).out) = some [] :=
  claim4_well_nested [] [97] [] false (XForest.fcons (XNode.txt [98]) XForest.fnil)
    (by decide)

/-- C5: on every input the output carries no empty text delivery and no two
adjacent text deliveries, and on every entity-free well-formed document the
full hook sequence equals the canonical one, in which each uninterrupted run
of text/CDATA/comment/PI tokens contributes exactly one text delivery —
the concatenation of its plain-text and CDATA parts — and only when that
concatenation is non-empty. -/
theorem claim5_merged_text :
    (∀ (defs : List (JStr × JStr)) (src : JStr) (n : Nat),
      List.Chain' (fun a b => ¬(isText a = true ∧ isText b = true))
        (steps defs n (init src)).out ∧
      ∀ b, Ev.evText b ∈ (steps defs n (init src)).out → b ≠ []) ∧
    (∀ (defs : List (JStr × JStr)) (nm : JStr) (attrs : List (JStr × JStr))
        (void : Bool) (kids : XForest), wfN (.elem nm attrs void kids) = true →
      ∃ k, (steps defs k (init (renderN (.elem nm attrs void kids)))).out =
          Ev.evHead [] :: (evN (.elem nm attrs void kids) []).1 ∧
        (steps defs k (init (renderN (.elem nm attrs void kids)))).active = false) := by
  constructor
  · intro defs src n
    have h := @textOk_steps defs (init src) (textOk_init src) n
    exact ⟨h.1, h.2.1⟩
  · intro defs nm attrs void kids h
    obtain ⟨k, vl2, vd2, hk⟩ := runRoot defs nm attrs void kids h
    exact ⟨k, by rw [hk], by rw [hk]⟩

set_option maxRecDepth 100000 in
/-- C5 witness: concrete applications on `<a>x</a>` and on a rendered
well-formed document. -/
theorem claim5_witness :
    List.Chain' (fun a b => ¬(isText a = true ∧ isText b = true))
      (steps [] 9 (init (J "<a>x</a>"))).out ∧
    ([120] : JStr) ≠ [] ∧
    (∃ k, (steps [] k (init (renderN (XNode.elem [97] [] true XForest.fnil)))).out =
        Ev.evHead [] :: (evN (XNode.elem [97] [] true XForest.fnil) []).1 ∧
      (steps [] k (init (renderN (XNode.elem [97] [] true XForest.fnil)))).active =
        false) :=
  ⟨(claim5_merged_text.1 [] (J "<a>x</a>") 9).1,
   (claim5_merged_text.1 [] (J "<a>x</a>") 9).2 [120] (by decide),
   claim5_merged_text.2 [] [97] [] true XForest.fnil (by decide)⟩

set_option maxRecDepth 100000 in
/-- C6 counterexample: on `<!--a>.<b"--><r/>` the reader's committed scan
delivers the head `<!--a>.`, yet the strictly longer prefix `<!--a>.<b"-->`
— a single comment token of the spec's grammar — also matches
(ignorable-content)*, so the head is not the longest such prefix: the
doctype-like alternative greedily commits `<!--a>` inside the comment. -/
theorem claim6_counterexample :
    (prologSplit (J "<!--a>.<b\"--><r/>")).1 = J "<!--a>." ∧
    SpecStar (J "<!--a>.<b\"-->") ∧
    (J "<!--a>.<b\"-->").isPrefixOf (J "<!--a>.<b\"--><r/>") = true ∧
    (prologSplit (J "<!--a>.<b\"--><r/>")).1.length < (J "<!--a>.<b\"-->").length := by
  refine ⟨by rfl, ?_, by decide, by decide⟩
  have h := SpecStar.tok (J "<!--a>.<b\"-->") [] (by decide) SpecStar.nil
  simpa using h

/-- C6 (amended): the head hook fires exactly once per read, before any
other hook, with the prefix the committed ordered-alternation prolog scan
consumes — not always the longest (ignorable-content)* prefix — and it
still fires with the empty string when no prolog is present. -/
theorem claim6_head_once :
    (∀ (defs : List (JStr × JStr)) (src : JStr) (n : Nat),
      ∃ t, (steps defs n (init src)).out = Ev.evHead (prologSplit src).1 :: t ∧
        ∀ e ∈ t, isHead e = false) ∧
    (prologSplit (J "<a></a>")).1 = [] := by
  constructor
  · intro defs src n
    exact headShape_steps ⟨[], rfl, fun e he => absurd he (List.not_mem_nil e)⟩ n
  · rfl

/-- C6 witness: the head delivery on `<a/>`. -/
theorem claim6_witness :
    ∃ t, (steps [] 3 (init (J "<a/>"))).out =
        Ev.evHead (prologSplit (J "<a/>")).1 :: t ∧
      ∀ e ∈ t, isHead e = false :=
  claim6_head_once.1 [] (J "<a/>") 3

/-- C8: at every point of execution the expansion frame stack and the
recursion-guard name stack have equal length; expand pushes one frame and
one name in the same step, and back pops one of each in the same step. -/
theorem claim8_stack_lockstep :
    (∀ (defs : List (JStr × JStr)) (src : JStr) (n : Nat),
      (steps defs n (init src)).stk.length = (steps defs n (init src)).names.length) ∧
    (∀ (defs : List (JStr × JStr)) (ref : JStr) (s : St),
      ref.head? ≠ some 35 → predef ref = none → ref ∉ s.names →
      (defsGet defs ref).isSome = true →
      (expand defs ref s).stk = ⟨s.rest, s.vlit, s.vdlm⟩ :: s.stk ∧
      (expand defs ref s).names = ref :: s.names) ∧
    (∀ (s : St) (f : Frame) (fs : List Frame) (x : JStr) (ns : List JStr),
      s.stk = f :: fs → s.names = x :: ns →
      (back s).stk = fs ∧ (back s).names = ns) := by
  refine ⟨?_, ?_, ?_⟩
  · intro defs src n
    exact (steps_inv (init_inv defs src) n).1
  · intro defs ref s h35 hpre hnm hdef
    simp only [expand, hpre]
    rw [if_neg h35, if_pos ⟨hnm, hdef⟩]
    exact ⟨rfl, rfl⟩
  · intro s f fs x ns hstk hns
    simp [back, hstk, hns]

/-- C8 witness: the invariant on a concrete run, a concrete push and a
concrete pop. -/
theorem claim8_witness :
    (steps [] 4 (init (J "<a/>"))).stk.length =
      (steps [] 4 (init (J "<a/>"))).names.length ∧
    ((expand [([98], [99])] [98] ⟨[], Mode.top, none, none, [], [], [], [], true⟩).stk =
        [⟨[], none, none⟩] ∧
      (expand [([98], [99])] [98] ⟨[], Mode.top, none, none, [], [], [], [], true⟩).names =
        [[98]]) ∧
    ((back ⟨[], Mode.top, none, none, [⟨[97], none, none⟩], [[98]], [], [], true⟩).stk =
        [] ∧
      (back ⟨[], Mode.top, none, none, [⟨[97], none, none⟩], [[98]], [], [], true⟩).names =
        []) :=
  ⟨claim8_stack_lockstep.1 [] (J "<a/>") 4,
   claim8_stack_lockstep.2.1 [([98], [99])] [98]
     ⟨[], Mode.top, none, none, [], [], [], [], true⟩
     (by decide) (by decide) (by decide) rfl,
   claim8_stack_lockstep.2.2 ⟨[], Mode.top, none, none, [⟨[97], none, none⟩], [[98]],
       [], [], true⟩
     ⟨[97], none, none⟩ [] [98] [] rfl rfl⟩

/-- C9: in expansion sub-mode (literal grammar `rx`, active delimiter the
empty string) every token the grammar matches is non-empty, so the
delimiter-match branch that would commit the value and return to
attribute-list mode is unreachable: when no token matches the frame
terminates by source exhaustion (deactivation on an empty stack, frame pop
otherwise), and when a token matches the mode stays the same value mode. -/
theorem claim9_expansion_delimiter (defs : List (JStr × JStr)) (s : St)
    (tag an : JStr) (attrs : List (JStr × JStr)) (hm : s.mode = .value tag attrs an)
    (hl : s.vlit = some .rx) (hd : s.vdlm = some []) (ha : s.active = true) :
    (∀ n, litLen .rx s.rest = some n → 1 ≤ n ∧ s.rest.take n ≠ []) ∧
    (litLen .rx s.rest = none →
      step defs s = if s.stk = [] then { s with active := false } else back s) ∧
    (∀ n, litLen .rx s.rest = some n → (step defs s).mode = .value tag attrs an) := by
  have hstep : step defs s = stepValue defs tag attrs an s := by
    simp only [step, ha, hm]
    rfl
  have htok : ∀ n, litLen .rx s.rest = some n → s.rest.take n ≠ [] := by
    intro n hn hc
    obtain ⟨h1, h2⟩ := litLen_bounds hn
    have := congrArg List.length hc
    simp only [List.length_take, List.length_nil] at this
    omega
  refine ⟨?_, ?_, ?_⟩
  · intro n hn
    exact ⟨(litLen_bounds hn).1, htok n hn⟩
  · intro hnone
    have hsv : stepValue defs tag attrs an s =
        if s.stk = [] then { s with active := false } else back s := by
      simp only [stepValue, hl, hnone]
    rw [hstep, hsv]
  · intro n hn
    have hsv : stepValue defs tag attrs an s =
        valueTok defs tag attrs an (s.rest.take n) { s with rest := s.rest.drop n } := by
      simp only [stepValue, hl, hn]
    rw [hstep, hsv]
    simp only [valueTok]
    rw [if_neg (by
      intro hc
      rw [show ({ s with rest := s.rest.drop n } : St).vdlm = s.vdlm from rfl, hd] at hc
      simp only [Option.some.injEq] at hc
      exact htok n hn hc)]
    by_cases h38 : (s.rest.take n).head? = some 38
    · rw [if_pos h38]
      exact expand_keeps.2.trans hm
    · rw [if_neg h38]
      exact hm

/-- C9 witness: a concrete expansion-sub-mode state; the run token `ab` is
non-empty, scanning it keeps the value mode, and an exhausted source pops
(here: deactivates on the empty stack). -/
theorem claim9_witness :
    (1 ≤ 2 ∧ ([97, 98] : JStr).take 2 ≠ []) ∧
    step [] ⟨[], Mode.value [116] [] [120], some .rx, some [], [], [], [], [], true⟩ =
      ⟨[], Mode.value [116] [] [120], some .rx, some [], [], [], [], [], false⟩ ∧
    (step [] ⟨[97, 98], Mode.value [116] [] [120], some .rx, some [], [], [], [], [],
        true⟩).mode = Mode.value [116] [] [120] :=
  ⟨(claim9_expansion_delimiter [] ⟨[97, 98], Mode.value [116] [] [120], some .rx,
      some [], [], [], [], [], true⟩ [116] [120] [] rfl rfl rfl rfl).1 2 rfl,
   ((claim9_expansion_delimiter [] ⟨[], Mode.value [116] [] [120], some .rx,
      some [], [], [], [], [], true⟩ [116] [120] [] rfl rfl rfl rfl).2.1 rfl).trans rfl,
   (claim9_expansion_delimiter [] ⟨[97, 98], Mode.value [116] [] [120], some .rx,
      some [], [], [], [], [], true⟩ [116] [120] [] rfl rfl rfl rfl).2.2 2 rfl⟩

set_option maxRecDepth 100000 in
/-- C10: a duplicated attribute name does not fail the read: on
`<a x="1" y="2" x="3"/>` the open hook receives x ↦ 3 before y ↦ 2 — the
value of the last occurrence at the position of the first — and in general
`Map.set` keeps an existing key's position while storing the new value, and
appends fresh keys at the end. -/
theorem claim10_duplicate_attrs :
    ((steps [] 25 (init (J "<a x=\"1\" y=\"2\" x=\"3\"/>"))).out =
      [Ev.evHead [], Ev.evOtag [97] [([120], [51]), ([121], [50])], Ev.evCtag [97]] ∧
     (steps [] 25 (init (J "<a x=\"1\" y=\"2\" x=\"3\"/>"))).active = false) ∧
    (∀ (m : List (JStr × JStr)) (k v : JStr), defsGet (mapSet m k v) k = some v) ∧
    (∀ (m : List (JStr × JStr)) (k v : JStr), k ∈ m.map Prod.fst →
      (mapSet m k v).map Prod.fst = m.map Prod.fst) ∧
    (∀ (m : List (JStr × JStr)) (k v : JStr), k ∉ m.map Prod.fst →
      mapSet m k v = m ++ [(k, v)]) := by
  refine ⟨⟨rfl, rfl⟩, ?_, ?_, fun m k v h => mapSet_fresh h⟩
  · intro m k v
    induction m with
    | nil => simp [mapSet, defsGet]
    | cons p t ih =>
      obtain ⟨k1, v1⟩ := p
      by_cases hk : k1 = k
      · simp [mapSet, defsGet, hk]
      · simp [mapSet, defsGet, hk, ih]
  · intro m k v hmem
    induction m with
    | nil => simp at hmem
    | cons p t ih =>
      obtain ⟨k1, v1⟩ := p
      by_cases hk : k1 = k
      · simp [mapSet, hk]
      · simp only [List.map_cons, List.mem_cons] at hmem
        rcases hmem with h | h
        · exact absurd h.symm hk
        · simp [mapSet, hk, ih h]

/-- C10 witness: concrete applications of the `Map.set` characterisation. -/
theorem claim10_witness :
    defsGet (mapSet [([120], [49])] [120] [51]) [120] = some [51] ∧
    (mapSet [([120], [49]), ([121], [50])] [120] [51]).map Prod.fst =
      [([120], [49]), ([121], [50])].map Prod.fst ∧
    mapSet [([120], [49])] [121] [50] = [([120], [49]), ([121], [50])] :=
  ⟨claim10_duplicate_attrs.2.1 [([120], [49])] [120] [51],
   claim10_duplicate_attrs.2.2.1 [([120], [49]), ([121], [50])] [120] [51] (by decide),
   claim10_duplicate_attrs.2.2.2 [([120], [49])] [121] [50] (by decide)⟩

end Microxml
